import Mathlib

/-!
Verification development for the segregated-free-list memory allocator in
`malloclab_mm.c` (functions `mm_init`, `malloc`, `free`, `realloc`, `calloc`,
`extend_heap`, `place`, `find_fit`, `coalesce`, `add_to_free_list`,
`remove_frome_free_list`, `find_list_tail`/`find_list_head`/`set_list_head`).

Modelling conventions (shallow embedding):

* The heap between the prologue and the epilogue is a list of blocks in
  address order, each block a pair `(size, allocated)`.  Boundary tags
  (header and footer always agree in the C code: every tag write in the
  source writes both with the same `PACK(size, alloc)`) are represented by
  the single record; `NEXT_BLKP`/`PREV_BLKP` pointer arithmetic becomes
  address arithmetic over prefix sums of the sizes.
* A block pointer `bp` (the C payload pointer) is modelled as the byte
  offset of the block's payload from the first block's payload: the payload
  pointers of consecutive blocks differ by exactly the block size in the C
  layout, so the offset of block `i` is the sum of the sizes of blocks
  `0..i-1`.  The prologue sits "before" offset 0 and the epilogue "after"
  the last block; both are permanently allocated, which is modelled by
  treating a missing physical neighbour as allocated.
* The eleven segregated free lists are lists of block offsets in insertion
  order (the C anchors iterate from the anchor's `next` pointer, i.e. the
  oldest inserted node first; `add_to_free_list` appends at the most
  recently inserted end).  The net effect of `remove_frome_free_list`
  (splicing in the doubly linked lists, predecessor scan in the smallest
  list) is erasing the node, and the net effect of `add_to_free_list` is
  appending it.
* `mem_sbrk` is modelled by a fixed byte budget `limit`: growth succeeds
  exactly when the grown heap still fits, otherwise it fails leaving the
  heap untouched (the external growth primitive either succeeds or fails
  with no partial state).
* Raw payload bytes are a flat list `mem : List Nat` indexed by the same
  offsets; `memcpy`/`memset` act on it.  On a null destination `memset`
  with a positive length has no defined result (`none`), reflecting the
  undefined behaviour of writing through a null pointer.
* Machine integers (`size_t`, 64-bit) are modelled by `Nat`; every
  subtraction performed by the source is either guarded by a comparison
  making it non-negative or is used only under the call-site precondition
  stated as a hypothesis of the corresponding theorem, so no wraparound
  arises in the modelled regime.
* Calls that violate the documented contract (freeing or resizing a
  pointer that is not a valid block) are undefined behaviour in C; the
  model makes them inert (state unchanged) via the `getBlk` lookup guard.
-/

namespace MallocLab

/-- A heap block: `(size in bytes, allocated flag)`.  The size includes the
8 bytes of header+footer overhead, as in the C code (`GET_SIZE` of a tag). -/
abbrev Blk := Nat × Bool

/-- Allocator state: the blocks between prologue and epilogue in address
order, the 11 segregated free lists (block offsets, oldest first), and the
total byte budget the growth primitive (`mem_sbrk`) will grant. -/
structure MMSt where
  blocks : List Blk
  lists : List (List Nat)
  limit : Nat
  deriving Repr, DecidableEq

/-- Sum of the sizes of a list of blocks; the address (payload offset) of a
block is `heapTotal` of the blocks before it, and the current heap end is
`heapTotal` of all blocks. -/
def heapTotal (bs : List Blk) : Nat := (bs.map Prod.fst).sum

/-- Translated from `find_list_tail` (and the identically-branched
`find_list_head` / `set_list_head`): the size-class index `0..10` for a
block size, with upper bounds 16, 32, 64, ..., 8192, and a last unbounded
class.  The C function returns `heap_listp + DSIZE * k`; the model returns
`k`. -/
def find_list_tail (size : Nat) : Nat :=
  if size ≤ 16 then 0
  else if size ≤ 32 then 1
  else if size ≤ 64 then 2
  else if size ≤ 128 then 3
  else if size ≤ 256 then 4
  else if size ≤ 512 then 5
  else if size ≤ 1024 then 6
  else if size ≤ 2048 then 7
  else if size ≤ 4096 then 8
  else if size ≤ 8192 then 9
  else 10

/-- Translated from `malloc`'s size adjustment: `asize = 2*DSIZE` when
`size <= DSIZE`, else `DSIZE * ((size + DSIZE + (DSIZE-1)) / DSIZE)`. -/
def adjustSize (size : Nat) : Nat :=
  if size ≤ 8 then 16 else 8 * ((size + 8 + 7) / 8)

/-- Read the block whose payload starts exactly at offset `a`
(the model counterpart of reading the boundary tag at `HDRP(bp)`).
Offsets that are not a block boundary return `none`. -/
def getBlk : List Blk → Nat → Option Blk
  | [], _ => none
  | b :: bs, a => if a = 0 then some b else if b.1 ≤ a then getBlk bs (a - b.1) else none

/-- `GET_SIZE(HDRP(bp))` with a default of 0 for non-boundary offsets. -/
def sizeAtD (st : MMSt) (a : Nat) : Nat :=
  match getBlk st.blocks a with
  | some b => b.1
  | none => 0

/-- The physical predecessor of the block at offset `a` (the block whose
span ends at `a`), as read through its footer by `PREV_BLKP`.  `none` means
the predecessor is the (permanently allocated) prologue. -/
def prevBlk : List Blk → Nat → Option Blk
  | [], _ => none
  | b :: bs, a =>
    if a = 0 then none
    else if a = b.1 then some b
    else if a < b.1 then none
    else prevBlk bs (a - b.1)

/-- Replace the block starting at offset `a` and the `n - 1` blocks after
it by the blocks `new`: the net effect on the block structure of the
header/footer rewrites performed by `place`, `coalesce` and `realloc`.
Offsets that are not a block boundary leave the heap unchanged. -/
def replaceAtN : List Blk → Nat → Nat → List Blk → List Blk
  | [], _, _, _ => []
  | b :: bs, a, n, new =>
    if a = 0 then new ++ bs.drop (n - 1)
    else if b.1 ≤ a then b :: replaceAtN bs (a - b.1) n new
    else b :: bs

/-- Translated from `add_to_free_list`: append `bp` at the most recently
inserted end of the free list whose class is chosen by the block's current
size (both the singly and the doubly linked representation append at the
tracked head and keep iteration order from the anchor, i.e. FIFO). -/
def addToFreeList (st : MMSt) (bp : Nat) : MMSt :=
  let k := find_list_tail (sizeAtD st bp)
  { st with lists := st.lists.set k ((st.lists.getD k []) ++ [bp]) }

/-- Translated from `remove_frome_free_list` (sic): unlink `bp` from the
free list chosen by the block's current size.  The doubly linked splice and
the singly linked predecessor scan both have the net effect of erasing the
node from the list. -/
def removeFromFreeList (st : MMSt) (bp : Nat) : MMSt :=
  let k := find_list_tail (sizeAtD st bp)
  { st with lists := st.lists.set k ((st.lists.getD k []).erase bp) }

/-- Translated from `coalesce`: the four boundary-tag cases.  A missing
physical neighbour (prologue/epilogue) counts as allocated.  Participating
free blocks are removed from their lists before the merged tags are
written, and the merged block is appended to the list of its new size;
returns the (possibly moved) block pointer together with the new state. -/
def mm_coalesce (st : MMSt) (bp : Nat) : Nat × MMSt :=
  let s := sizeAtD st bp
  let prev_alloc := match prevBlk st.blocks bp with
    | none => true
    | some pb => pb.2
  let next_alloc := match getBlk st.blocks (bp + s) with
    | none => true
    | some nb => nb.2
  if prev_alloc && next_alloc then
    (bp, st)
  else if prev_alloc && !next_alloc then
    -- Case 2: merge with the following block
    let nsz := match getBlk st.blocks (bp + s) with
      | some nb => nb.1
      | none => 0
    let st1 := removeFromFreeList st bp
    let st2 := removeFromFreeList st1 (bp + s)
    let st3 := { st2 with blocks := replaceAtN st2.blocks bp 2 [(s + nsz, false)] }
    let st4 := addToFreeList st3 bp
    (bp, st4)
  else if !prev_alloc && next_alloc then
    -- Case 3: merge with the preceding block
    let psz := match prevBlk st.blocks bp with
      | some pb => pb.1
      | none => 0
    let st1 := removeFromFreeList st (bp - psz)
    let st2 := removeFromFreeList st1 bp
    let st3 := { st2 with blocks := replaceAtN st2.blocks (bp - psz) 2 [(psz + s, false)] }
    let st4 := addToFreeList st3 (bp - psz)
    (bp - psz, st4)
  else
    -- Case 4: merge with both neighbours
    let psz := match prevBlk st.blocks bp with
      | some pb => pb.1
      | none => 0
    let nsz := match getBlk st.blocks (bp + s) with
      | some nb => nb.1
      | none => 0
    let st1 := removeFromFreeList st (bp - psz)
    let st2 := removeFromFreeList st1 (bp + s)
    let st3 := removeFromFreeList st2 bp
    let st4 := { st3 with blocks := replaceAtN st3.blocks (bp - psz) 3 [(psz + s + nsz, false)] }
    let st5 := addToFreeList st4 (bp - psz)
    (bp - psz, st5)

/-- Translated from `free`: a null pointer is a no-op; otherwise rewrite
the tags as free (size unchanged), append to the matching class and
coalesce.  A pointer that is not a block boundary is outside the contract
(UB in C) and is modelled as a no-op. -/
def mm_free (st : MMSt) (ptr : Option Nat) : MMSt :=
  match ptr with
  | none => st
  | some bp =>
    match getBlk st.blocks bp with
    | none => st
    | some b =>
      let st1 := { st with blocks := replaceAtN st.blocks bp 1 [(b.1, false)] }
      let st2 := addToFreeList st1 bp
      (mm_coalesce st2 bp).2

/-- Translated from `place`: if the candidate's slack `csize - asize` is at
least `2*DSIZE`, the candidate is removed from its class, the LOW
`csize - asize` bytes are rewritten as a free block (appended to the class
of its new size) and the HIGH `asize` bytes become the allocated block,
whose payload pointer `bp + (csize - asize)` is returned.  Otherwise the
whole candidate is allocated and `bp` is returned. -/
def mm_place (st : MMSt) (bp asize : Nat) : Nat × MMSt :=
  let csize := sizeAtD st bp
  if 16 ≤ csize - asize then
    let st1 := removeFromFreeList st bp
    let st2 := { st1 with blocks := replaceAtN st1.blocks bp 1 [(csize - asize, false), (asize, true)] }
    let st3 := addToFreeList st2 bp
    (bp + (csize - asize), st3)
  else
    let st1 := { st with blocks := replaceAtN st.blocks bp 1 [(csize, true)] }
    let st2 := removeFromFreeList st1 bp
    (bp, st2)

/-- Translated from `find_fit`'s first loop body: first-fit scan of one
class list, returning the first node whose size is at least `asize`. -/
def firstScan (st : MMSt) (asize : Nat) : List Nat → Option Nat
  | [] => none
  | bp :: rest => if asize ≤ sizeAtD st bp then some bp else firstScan st asize rest

/-- Translated from `find_fit`'s second loop body: best-fit scan of one
class list, threading the running best size `t` and best node; a node is
accepted when it qualifies and its size is at most the running best. -/
def bestScan (st : MMSt) (asize : Nat) : List Nat → Nat → Option Nat → Nat × Option Nat
  | [], t, best => (t, best)
  | bp :: rest, t, best =>
    if asize ≤ sizeAtD st bp then
      if sizeAtD st bp ≤ t then bestScan st asize rest (sizeAtD st bp) (some bp)
      else bestScan st asize rest t best
    else bestScan st asize rest t best

/-- Translated from `find_fit`'s first loop: iterate classes upward,
stopping (falling through to the best-fit loop) as soon as the class index
is one of 2..10; inside, first-fit scan the class.  The `fuel` argument
only bounds the recursion; with fuel 12 it is never exhausted, since
entry indices are at most 10 and the loop exits at index 2 at the latest
when starting from 0 or 1. -/
def firstFitLoop (st : MMSt) (asize : Nat) : Nat → Nat → Nat ⊕ Nat
  | 0, idx => Sum.inr idx
  | fuel + 1, idx =>
    if idx = 2 ∨ idx = 3 ∨ idx = 4 ∨ idx = 5 ∨ idx = 6 ∨ idx = 7 ∨ idx = 8 ∨ idx = 9 ∨ idx = 10 then
      Sum.inr idx
    else
      match firstScan st asize (st.lists.getD idx []) with
      | some bp => Sum.inl bp
      | none => firstFitLoop st asize fuel (idx + 1)

/-- Translated from `find_fit`'s second loop: iterate the remaining classes
up to index 10; a class whose best-fit scan produced a candidate ends the
search immediately. -/
def bestFitLoop (st : MMSt) (asize : Nat) : Nat → Nat → Nat → Option Nat
  | 0, _, _ => none
  | fuel + 1, idx, t =>
    if idx = 11 then none
    else
      match bestScan st asize (st.lists.getD idx []) t none with
      | (_, some bp) => some bp
      | (t', none) => bestFitLoop st asize fuel (idx + 1) t'

/-- Translated from `find_fit`: start at the class of `asize`; the first
loop (first-fit) runs only while the class index is 0 or 1; the second loop
(best-fit, running best initialised to `1 << 30`) covers the remaining
classes. -/
def mm_find_fit (st : MMSt) (asize : Nat) : Option Nat :=
  match firstFitLoop st asize 12 (find_list_tail asize) with
  | Sum.inl bp => some bp
  | Sum.inr idx => bestFitLoop st asize 12 idx (2 ^ 30)

/-- Translated from `extend_heap`: round the word count up to an even
number of words, obtain that many bytes from the growth primitive (failure
when the budget `limit` would be exceeded, leaving the state untouched),
write free tags over the new region just before the relocated epilogue,
append it to its class and coalesce with the previous block. -/
def mm_extend (st : MMSt) (words : Nat) : Option Nat × MMSt :=
  let size := if words % 2 = 1 then (words + 1) * 4 else words * 4
  if st.limit < heapTotal st.blocks + size then (none, st)
  else
    let bp := heapTotal st.blocks
    let st1 := { st with blocks := st.blocks ++ [(size, false)] }
    let st2 := addToFreeList st1 bp
    let (ret, st3) := mm_coalesce st2 bp
    (some ret, st3)

/-- Translated from `malloc`'s no-fit path: extend the heap by
`MAX(asize, CHUNKSIZE) / WSIZE` words and place into the returned block;
growth failure propagates as a null result with no state change. -/
def mallocGrow (st : MMSt) (asize : Nat) : Option Nat × MMSt :=
  let extendsize := max asize 512
  match mm_extend st (extendsize / 4) with
  | (none, st') => (none, st')
  | (some bp, st') =>
    let (p, st'') := mm_place st' bp asize
    (some p, st'')

/-- Translated from `malloc`: zero requests are rejected, the adjusted
size is searched for, and on a miss the heap is grown. -/
def mm_malloc (st : MMSt) (size : Nat) : Option Nat × MMSt :=
  if size = 0 then (none, st)
  else
    let asize := adjustSize size
    match mm_find_fit st asize with
    | some bp =>
      let (p, st') := mm_place st bp asize
      (some p, st')
    | none => mallocGrow st asize

/-- Translated from `memcpy(dst, src, len)` on the flat byte store: bytes
`[dst, dst+len)` take the values of bytes `[src, src+len)`; everything
else is unchanged.  The store length is preserved. -/
def memcpyBytes (m : List Nat) (dst src len : Nat) : List Nat :=
  (List.range m.length).map fun i =>
    if dst ≤ i ∧ i < dst + len then m.getD (src + (i - dst)) 0 else m.getD i 0

/-- Translated from `memset(dst, v, len)` on the flat byte store.  Writing
through a null pointer with a positive length is undefined behaviour and
has no defined resulting store (`none`). -/
def memsetBytes (m : List Nat) (dst : Option Nat) (v len : Nat) : Option (List Nat) :=
  match dst with
  | none => if len = 0 then some m else none
  | some d =>
    some ((List.range m.length).map fun i =>
      if d ≤ i ∧ i < d + len then v else m.getD i 0)

/-- Translated from `realloc`'s final fallback: allocate a fresh block for
`asize` bytes (note the source passes the already-adjusted `asize` to
`mm_malloc`, which rounds again), `memcpy` `oldsize` bytes (the old block's
full size, read from its header) from the old payload, free the old block
and return the new pointer; when the fresh allocation fails, return null
with nothing touched. -/
def reallocFallback (st : MMSt) (mem : List Nat) (p oldsize asize : Nat) :
    Option Nat × MMSt × List Nat :=
  match mm_malloc st asize with
  | (none, st1) => (none, st1, mem)
  | (some np, st1) =>
    let mem1 := memcpyBytes mem np p oldsize
    (some np, mm_free st1 (some p), mem1)

/-- Translated from `realloc`: size-0 delegates to `free` and returns
null; a null pointer delegates to `malloc`; otherwise shrink-with-split,
shrink-in-place, grow-by-merging-the-next-free-block (with or without a
split-off remainder), or the copying fallback. -/
def mm_realloc (st : MMSt) (mem : List Nat) (ptr : Option Nat) (size : Nat) :
    Option Nat × MMSt × List Nat :=
  if size = 0 then (none, mm_free st ptr, mem)
  else
    match ptr with
    | none =>
      let (r, st') := mm_malloc st size
      (r, st', mem)
    | some p =>
      let oldsize := sizeAtD st p
      let asize := adjustSize size
      if asize + 16 ≤ oldsize then
        -- split the old block into an allocated part and a freed remainder
        let st1 := { st with blocks := replaceAtN st.blocks p 1 [(asize, true), (oldsize - asize, true)] }
        (some p, mm_free st1 (some (p + asize)), mem)
      else if asize ≤ oldsize then
        (some p, st, mem)
      else
        match getBlk st.blocks (p + oldsize) with
        | some (nsz, false) =>
          let nowsize := oldsize + nsz
          if asize + 16 ≤ nowsize then
            let st1 := removeFromFreeList st (p + oldsize)
            let st2 := { st1 with blocks := replaceAtN st1.blocks p 2 [(asize, true), (nowsize - asize, false)] }
            let st3 := addToFreeList st2 (p + asize)
            (some p, st3, mem)
          else if asize ≤ nowsize then
            let st1 := removeFromFreeList st (p + oldsize)
            let st2 := { st1 with blocks := replaceAtN st1.blocks p 2 [(nowsize, true)] }
            (some p, st2, mem)
          else reallocFallback st mem p oldsize asize
        | _ => reallocFallback st mem p oldsize asize

/-- Translated from `calloc`: `bytes = nmemb * size`, delegate to
`malloc`, then `memset` the result to zero — with no null check between
the two calls, exactly as in the source. -/
def mm_calloc (st : MMSt) (mem : List Nat) (nmemb sz : Nat) :
    Option Nat × MMSt × Option (List Nat) :=
  let bytes := nmemb * sz
  let (newptr, st') := mm_malloc st bytes
  (newptr, st', memsetBytes mem newptr 0 bytes)

/-- Two physically adjacent blocks are never both free. -/
def allocAdj (x y : Blk) : Prop := x.2 = true ∨ y.2 = true

/-- Heap invariant claimed by the spec: no two physically adjacent blocks
are simultaneously free (the prologue and epilogue neighbours are
permanently allocated, so only interior adjacencies matter). -/
def NoAdjFree (bs : List Blk) : Prop := List.Chain' allocAdj bs

/-- Every block has positive size (every real block is at least the
minimum block size). -/
def SizesPos (bs : List Blk) : Prop := ∀ b ∈ bs, 0 < b.1

/-- Every block size is a multiple of the 8-byte alignment unit. -/
def SizesAligned (bs : List Blk) : Prop := ∀ b ∈ bs, b.1 % 8 = 0

/-- The offset `a` is a block boundary holding a free block. -/
def freeAt (st : MMSt) (a : Nat) : Bool :=
  match getBlk st.blocks a with
  | some b => !b.2
  | none => false

/-- Free-list soundness: every node of every class list is a free block of
the heap. -/
def ListsValid (st : MMSt) : Prop :=
  ∀ l ∈ st.lists, ∀ a ∈ l, freeAt st a = true

/-- Well-formed heap: the no-adjacent-free invariant, positive block
sizes, and sound free lists. -/
def WFheap (st : MMSt) : Prop :=
  NoAdjFree st.blocks ∧ SizesPos st.blocks ∧ ListsValid st

/-- One completed allocator operation, at the exported entry points. -/
inductive OpStep : MMSt → MMSt → Prop where
  | malloc (st : MMSt) (s : Nat) : OpStep st (mm_malloc st s).2
  | free (st : MMSt) (ptr : Option Nat) : OpStep st (mm_free st ptr)
  | realloc (st : MMSt) (mem : List Nat) (ptr : Option Nat) (s : Nat) :
      OpStep st (mm_realloc st mem ptr s).2.1
  | calloc (st : MMSt) (mem : List Nat) (n e : Nat) :
      OpStep st (mm_calloc st mem n e).2.1

/-- A heap with one 48-byte free block, registered in class 2. -/
def C1st : MMSt := ⟨[(48, false)], [[], [], [0], [], [], [], [], [], [], [], []], 1000⟩

/-- A heap whose class-2 free list holds, in insertion order, a 64-byte
free block at offset 0 and a 48-byte free block at offset 80 (separated by
allocated blocks so that no coalescing applies). -/
def C2st : MMSt :=
  ⟨[(64, false), (16, true), (48, false), (16, true)],
   [[], [], [0, 80], [], [], [], [], [], [], [], []], 1000⟩

/-- A heap with an allocated 16-byte block at offset 0 (payload bytes
`[0,8)`), an allocated guard block at 16, and a free 48-byte block at 32
(class 2). -/
def C5st : MMSt :=
  ⟨[(16, true), (16, true), (48, false)], [[], [], [32], [], [], [], [], [], [], [], []], 80⟩

/-- Byte store for `C5st`: byte 8 (inside the old block's footer region)
is 9, byte 40 (inside the prospective new block's payload) is 5. -/
def C5mem : List Nat := ((List.replicate 80 0).set 8 9).set 40 5

/-- A full heap (one allocated block, growth budget exhausted): every
allocation attempt fails with out-of-memory. -/
def C6st : MMSt := ⟨[(16, true)], [[], [], [], [], [], [], [], [], [], [], []], 16⟩

/-- Byte store for `C6st`. -/
def C6mem : List Nat := List.replicate 16 0

/-- A heap with a single 16-byte free block in class 0. -/
def C7st : MMSt := ⟨[(16, false)], [[0], [], [], [], [], [], [], [], [], [], []], 16⟩

/-- Byte store for `C7st`: the 8 payload bytes all hold 7. -/
def C7mem : List Nat := List.replicate 8 7

/-- The last block of the left context is allocated (vacuously true when
the context is empty: the physical neighbour is then the permanently
allocated prologue). -/
def lastAlloc (L : List Blk) : Prop := ∀ x ∈ L.getLast?, x.2 = true

/-- The first block of the right context is allocated (vacuously true when
the context is empty: the physical neighbour is then the permanently
allocated epilogue). -/
def headAlloc (R : List Blk) : Prop := ∀ x ∈ R.head?, x.2 = true

/-- Size of the free block immediately after the focus, 0 when that
neighbour is allocated or is the epilogue. -/
def nextFreeSize (R : List Blk) : Nat :=
  match R.head? with
  | some (ns, false) => ns
  | _ => 0

/-- Size of the free block immediately before the focus, 0 when that
neighbour is allocated or is the prologue. -/
def prevFreeSize (L : List Blk) : Nat :=
  match L.getLast? with
  | some (ps, false) => ps
  | _ => 0

/-- Decidability of the adjacency relation, for evaluating the invariant
on concrete heaps. -/
instance : DecidableRel allocAdj := fun x y =>
  inferInstanceAs (Decidable (x.2 = true ∨ y.2 = true))

instance (bs : List Blk) : Decidable (NoAdjFree bs) :=
  inferInstanceAs (Decidable (List.Chain' allocAdj bs))

instance (bs : List Blk) : Decidable (SizesPos bs) :=
  inferInstanceAs (Decidable (∀ b ∈ bs, 0 < b.1))

instance (bs : List Blk) : Decidable (SizesAligned bs) :=
  inferInstanceAs (Decidable (∀ b ∈ bs, b.1 % 8 = 0))

instance (st : MMSt) : Decidable (ListsValid st) :=
  inferInstanceAs (Decidable (∀ l ∈ st.lists, ∀ a ∈ l, freeAt st a = true))

/-- A heap with one allocated 16-byte block and an exhausted growth
budget. -/
def C3st : MMSt := ⟨[(16, true)], [[], [], [], [], [], [], [], [], [], [], []], 16⟩

/-- A heap captured just after `free` marked the middle block free and
before coalescing: an allocated block, then two adjacent free blocks. -/
def C9st : MMSt :=
  ⟨[(16, true), (16, false), (16, false)],
   [[16, 32], [], [], [], [], [], [], [], [], [], []], 48⟩

/-- A heap with one free 24-byte block in class 1. -/
def C4st : MMSt := ⟨[(24, false)], [[], [0], [], [], [], [], [], [], [], [], []], 24⟩

/-- A heap whose only free block (class 10) is larger than `2^30` bytes. -/
def C10st : MMSt :=
  ⟨[(1073741832, false)], [[], [], [], [], [], [], [], [], [], [], [0]], 1073741832⟩

end MallocLab

namespace MallocLab

/-- Claim C1, counterexample.  Placing `asize = 16` into the 48-byte free
candidate at offset 0 does NOT make the low 16 bytes the allocated block:
the returned payload pointer is not the candidate's payload start (offset
0), and the low part of the split is not the allocated block `(16, true)` —
the source's `place` gives the low `csize - asize` bytes free tags and
allocates the high `asize` bytes. -/
theorem place_low_allocated_refuted :
    (mm_place C1st 0 16).1 ≠ 0 ∧
    (mm_place C1st 0 16).2.blocks.head? ≠ some (16, true) := by
  decide

/-- Claim C2, counterexample.  With `asize = 40` the search starts at
class 2 (bound 64), which is not one of the two largest classes, so the
claim demands first-fit: the first qualifying node of the class list
`[0, 80]` is the 64-byte block at offset 0.  The code instead best-fit
scans that class and returns the 48-byte block at offset 80. -/
theorem find_fit_class2_first_fit_refuted :
    mm_find_fit C2st 40 = some 80 ∧
    firstScan C2st 40 (C2st.lists.getD 2 []) = some 0 ∧
    mm_find_fit C2st 40 ≠ some 0 := by
  decide

/-- Claim C5, counterexample.  `realloc(ptr at 0, 20)` must take the
fallback (old size 16 < asize 32, next block allocated); the fresh block is
placed at offset 32.  `min(oldPayloadSize, newSize) = min(8, 20) = 8`, so
under the claim the new block's payload bytes from offset `32 + 8 = 40` on
are not written by the copy — byte 40 held 5.  The code instead copies
`oldsize = 16` bytes, so byte 40 receives old byte 8 (which held 9). -/
theorem realloc_fallback_copy_min_refuted :
    (mm_realloc C5st C5mem (some 0) 20).1 = some 32 ∧
    (mm_realloc C5st C5mem (some 0) 20).2.2.getD 40 0 = 9 ∧
    C5mem.getD 40 0 = 5 := by
  decide

/-- Claim C6 (code bug), behaviour at the failing input.  On `C6st` the
growth primitive cannot satisfy any request, so `malloc(1*8)` returns
null — and `calloc` then calls `memset(newptr, 0, 8)` on that null result
without a check: the byte store has no defined final state (`none`),
i.e. the code writes through the failed allocation, contradicting the
claim that it never does. -/
theorem calloc_oom_memsets_null :
    mm_calloc C6st C6mem 1 8 = (none, C6st, none) := by
  decide

/-- Claim C7, counterexample.  `calloc(1, 1)` allocates the 16-byte block
(payload bytes `[0, 8)`) and zero-fills only `1 * 1 = 1` byte: payload
byte 1 still holds 7, so not every byte of the returned block's usable
payload is zero. -/
theorem calloc_zero_fill_whole_block_refuted :
    (mm_calloc C7st C7mem 1 1).1 = some 0 ∧
    getBlk (mm_calloc C7st C7mem 1 1).2.1.blocks 0 = some (16, true) ∧
    ((mm_calloc C7st C7mem 1 1).2.2.getD []).getD 1 0 = 7 := by
  decide

end MallocLab

namespace MallocLab

/-- Sizes distribute over append. -/
theorem heapTotal_append (L R : List Blk) :
    heapTotal (L ++ R) = heapTotal L + heapTotal R := by
  simp [heapTotal]

/-- Sizes of a cons. -/
theorem heapTotal_cons (b : Blk) (R : List Blk) :
    heapTotal (b :: R) = b.1 + heapTotal R := by
  simp [heapTotal]

/-- Positivity restricts to sublists of an append. -/
theorem sizesPos_append (L R : List Blk) (h : SizesPos (L ++ R)) :
    SizesPos L ∧ SizesPos R := by
  constructor <;> intro b hb <;> exact h b (by simp [hb])

/-- A nonempty all-positive block list has positive total size. -/
theorem heapTotal_pos (L : List Blk) (h : SizesPos L) (hne : L ≠ []) :
    0 < heapTotal L := by
  cases L with
  | nil => exact absurd rfl hne
  | cons b L =>
    have := h b (by simp)
    rw [heapTotal_cons]
    omega

/-- Reading offset 0 gives the first block. -/
theorem getBlk_zero (R : List Blk) : getBlk R 0 = R.head? := by
  cases R <;> simp [getBlk]

/-- Reading past an all-positive prefix lands in the suffix. -/
theorem getBlk_append (L R : List Blk) (hL : SizesPos L) (a : Nat) :
    getBlk (L ++ R) (heapTotal L + a) = getBlk R a := by
  induction L with
  | nil => simp [heapTotal]
  | cons b L ih =>
    have hb : 0 < b.1 := hL b (by simp)
    have hL' : SizesPos L := fun x hx => hL x (by simp [hx])
    simp only [List.cons_append, getBlk, heapTotal_cons]
    rw [if_neg (by omega), if_pos (by omega)]
    have harith : b.1 + heapTotal L + a - b.1 = heapTotal L + a := by omega
    rw [harith]
    exact ih hL'

/-- Reading strictly inside the prefix is independent of the suffix. -/
theorem getBlk_append_lt (L R : List Blk) (a : Nat) (ha : a < heapTotal L) :
    getBlk (L ++ R) a = getBlk L a := by
  induction L generalizing a with
  | nil => simp [heapTotal] at ha
  | cons b L ih =>
    simp only [List.cons_append, getBlk]
    by_cases h0 : a = 0
    · simp [h0]
    · by_cases hba : b.1 ≤ a
      · rw [if_neg h0, if_pos hba, if_neg h0, if_pos hba]
        exact ih (a - b.1) (by rw [heapTotal_cons] at ha; omega)
      · rw [if_neg h0, if_neg hba, if_neg h0, if_neg hba]

/-- A successful block read decomposes the heap at that offset. -/
theorem getBlk_decomp (bs : List Blk) (a : Nat) (b : Blk)
    (h : getBlk bs a = some b) :
    ∃ L R, bs = L ++ b :: R ∧ heapTotal L = a := by
  induction bs generalizing a with
  | nil => simp [getBlk] at h
  | cons b0 bs ih =>
    by_cases h0 : a = 0
    · subst h0
      have hb0 : some b0 = some b := by simpa [getBlk] using h
      obtain rfl := Option.some.inj hb0
      exact ⟨[], bs, rfl, rfl⟩
    · by_cases hba : b0.1 ≤ a
      · rw [getBlk, if_neg h0, if_pos hba] at h
        obtain ⟨L, R, hbs, hTot⟩ := ih (a - b0.1) h
        refine ⟨b0 :: L, R, by simp [hbs], ?_⟩
        rw [heapTotal_cons, hTot]
        omega
      · rw [getBlk, if_neg h0, if_neg hba] at h
        exact absurd h (by simp)

/-- A successful block read returns a member of the heap. -/
theorem getBlk_mem (bs : List Blk) (a : Nat) (b : Blk)
    (h : getBlk bs a = some b) : b ∈ bs := by
  obtain ⟨L, R, hbs, -⟩ := getBlk_decomp bs a b h
  simp [hbs]

/-- With all sizes multiples of 8, every block boundary offset is a
multiple of 8. -/
theorem getBlk_aligned (bs : List Blk) (a : Nat) (b : Blk)
    (hal : SizesAligned bs) (h : getBlk bs a = some b) : a % 8 = 0 := by
  induction bs generalizing a with
  | nil => simp [getBlk] at h
  | cons b0 bs ih =>
    by_cases h0 : a = 0
    · simp [h0]
    · by_cases hba : b0.1 ≤ a
      · rw [getBlk, if_neg h0, if_pos hba] at h
        have h8 : b0.1 % 8 = 0 := hal b0 (by simp)
        have hal' : SizesAligned bs := fun x hx => hal x (by simp [hx])
        have := ih (a - b0.1) hal' h
        omega
      · rw [getBlk, if_neg h0, if_neg hba] at h
        exact absurd h (by simp)

/-- Replacement at the boundary after an all-positive prefix. -/
theorem replaceAtN_append (L : List Blk) (b : Blk) (R new : List Blk) (n : Nat)
    (hL : SizesPos L) :
    replaceAtN (L ++ b :: R) (heapTotal L) n new = L ++ new ++ R.drop (n - 1) := by
  induction L with
  | nil => simp [replaceAtN, heapTotal]
  | cons b0 L ih =>
    have hb : 0 < b0.1 := hL b0 (by simp)
    have hL' : SizesPos L := fun x hx => hL x (by simp [hx])
    simp only [List.cons_append, replaceAtN, heapTotal_cons, List.append_eq]
    rw [if_neg (by omega), if_pos (by omega)]
    have harith : b0.1 + heapTotal L - b0.1 = heapTotal L := by omega
    rw [harith, ih hL']

/-- The physical predecessor of the boundary after an all-positive prefix
is the last block of that prefix. -/
theorem prevBlk_append (L R : List Blk) (hL : SizesPos L) :
    prevBlk (L ++ R) (heapTotal L) = L.getLast? := by
  induction L with
  | nil =>
    cases R <;> simp [prevBlk, heapTotal]
  | cons b L ih =>
    have hb : 0 < b.1 := hL b (by simp)
    have hL' : SizesPos L := fun x hx => hL x (by simp [hx])
    cases L with
    | nil =>
      have h1 : heapTotal [b] = b.1 := by simp [heapTotal]
      rw [h1]
      simp only [List.singleton_append, prevBlk]
      rw [if_neg (by omega)]
      simp
    | cons c L' =>
      have hc : 0 < heapTotal (c :: L') :=
        heapTotal_pos (c :: L') hL' (by simp)
      have h1 : heapTotal (b :: c :: L') = b.1 + heapTotal (c :: L') :=
        heapTotal_cons _ _
      have hih := ih hL'
      rw [h1, List.cons_append, prevBlk]
      rw [if_neg (by omega), if_neg (by omega), if_neg (by omega)]
      have harith : b.1 + heapTotal (c :: L') - b.1 = heapTotal (c :: L') := by omega
      rw [harith]
      simp only [List.cons_append] at hih ⊢
      rw [hih]
      rfl

/-- Splitting the no-adjacent-free invariant at a focus block. -/
theorem noAdjFree_decomp (L R : List Blk) (b : Blk)
    (h : NoAdjFree (L ++ b :: R)) :
    NoAdjFree L ∧ NoAdjFree R ∧ (b.2 = false → lastAlloc L ∧ headAlloc R) := by
  rw [NoAdjFree, List.chain'_append] at h
  obtain ⟨h1, h2, h3⟩ := h
  rw [List.chain'_cons'] at h2
  refine ⟨h1, h2.2, fun hb => ⟨?_, ?_⟩⟩
  · intro x hx
    have := h3 x hx b (by simp)
    rcases this with h | h
    · exact h
    · rw [hb] at h; cases h
  · intro y hy
    have := h2.1 y hy
    rcases this with h | h
    · rw [hb] at h; cases h
    · exact h

/-- Reassembling the no-adjacent-free invariant around one focus block. -/
theorem noAdjFree_mid1 (L R : List Blk) (b : Blk)
    (hL : NoAdjFree L) (hR : NoAdjFree R)
    (hbL : b.2 = false → lastAlloc L) (hbR : b.2 = false → headAlloc R) :
    NoAdjFree (L ++ b :: R) := by
  rw [NoAdjFree, List.chain'_append]
  refine ⟨hL, ?_, ?_⟩
  · rw [List.chain'_cons']
    refine ⟨?_, hR⟩
    intro y hy
    rcases hb : b.2 with _ | _
    · exact Or.inr (hbR hb y hy)
    · exact Or.inl hb
  · intro x hx y hy
    have hyb : b = y := by simpa using hy
    subst hyb
    rcases hb : b.2 with _ | _
    · exact Or.inl (hbL hb x hx)
    · exact Or.inr hb

/-- Reassembling the no-adjacent-free invariant around two focus blocks. -/
theorem noAdjFree_mid2 (L R : List Blk) (b c : Blk)
    (hL : NoAdjFree L) (hR : NoAdjFree R) (hbc : allocAdj b c)
    (hbL : b.2 = false → lastAlloc L) (hcR : c.2 = false → headAlloc R) :
    NoAdjFree (L ++ b :: c :: R) := by
  have : NoAdjFree (c :: R) := by
    rw [NoAdjFree, List.chain'_cons']
    refine ⟨?_, hR⟩
    intro y hy
    rcases hc : c.2 with _ | _
    · exact Or.inr (hcR hc y hy)
    · exact Or.inl hc
  rw [NoAdjFree, List.chain'_append]
  refine ⟨hL, ?_, ?_⟩
  · rw [List.chain'_cons']
    refine ⟨fun y hy => ?_, this⟩
    have hyc : c = y := by simpa using hy
    subst hyc
    exact hbc
  · intro x hx y hy
    have hyb : b = y := by simpa using hy
    subst hyb
    rcases hb : b.2 with _ | _
    · exact Or.inl (hbL hb x hx)
    · exact Or.inr hb

end MallocLab

namespace MallocLab

theorem getBlk_at (L R : List Blk) (b : Blk) (hL : SizesPos L) :
    getBlk (L ++ b :: R) (heapTotal L) = some b := by
  have h := getBlk_append L (b :: R) hL 0
  rw [Nat.add_zero] at h
  rw [h, getBlk_zero]
  rfl

theorem getBlk_at2 (L R : List Blk) (b : Blk) (hL : SizesPos L) (hb : 0 < b.1) :
    getBlk (L ++ b :: R) (heapTotal L + b.1) = R.head? := by
  have hL' : SizesPos (L ++ [b]) := by
    intro x hx
    rcases List.mem_append.mp hx with h | h
    · exact hL x h
    · simp at h; subst h; exact hb
  have h1 : heapTotal (L ++ [b]) = heapTotal L + b.1 := by
    rw [heapTotal_append]; simp [heapTotal]
  have h2 : L ++ b :: R = (L ++ [b]) ++ R := by simp
  rw [h2, ← h1]
  have h := getBlk_append (L ++ [b]) R hL' 0
  rw [Nat.add_zero] at h
  rw [h, getBlk_zero]

theorem removeFromFreeList_blocks (st : MMSt) (bp : Nat) :
    (removeFromFreeList st bp).blocks = st.blocks := rfl

theorem removeFromFreeList_limit (st : MMSt) (bp : Nat) :
    (removeFromFreeList st bp).limit = st.limit := rfl

theorem addToFreeList_blocks (st : MMSt) (bp : Nat) :
    (addToFreeList st bp).blocks = st.blocks := rfl

theorem addToFreeList_limit (st : MMSt) (bp : Nat) :
    (addToFreeList st bp).limit = st.limit := rfl

theorem coalesce_spec (st : MMSt) (L R : List Blk) (s : Nat)
    (hblocks : st.blocks = L ++ (s, false) :: R)
    (hpos : SizesPos st.blocks) (hL : NoAdjFree L) (hR : NoAdjFree R) :
    ∃ L' S R',
      (mm_coalesce st (heapTotal L)).2.blocks = L' ++ (S, false) :: R' ∧
      heapTotal L' = (mm_coalesce st (heapTotal L)).1 ∧
      (mm_coalesce st (heapTotal L)).2.limit = st.limit ∧
      NoAdjFree L' ∧ NoAdjFree R' ∧ lastAlloc L' ∧ headAlloc R' ∧
      SizesPos (mm_coalesce st (heapTotal L)).2.blocks ∧
      s ≤ S ∧
      (mm_coalesce st (heapTotal L)).1 + S = heapTotal L + s + nextFreeSize R ∧
      (mm_coalesce st (heapTotal L)).1 + prevFreeSize L = heapTotal L := by
  have hposL : SizesPos L := by
    intro x hx; exact hpos x (by rw [hblocks]; simp [hx])
  have hs : 0 < s := by
    have := hpos (s, false) (by rw [hblocks]; simp)
    simpa using this
  have hposR : SizesPos R := by
    intro x hx; exact hpos x (by rw [hblocks]; simp [hx])
  have hsize : sizeAtD st (heapTotal L) = s := by
    rw [sizeAtD, hblocks, getBlk_at L R (s, false) hposL]
  have hprev : prevBlk st.blocks (heapTotal L) = L.getLast? := by
    rw [hblocks]; exact prevBlk_append L _ hposL
  have hnext : getBlk st.blocks (heapTotal L + s) = R.head? := by
    rw [hblocks]; exact getBlk_at2 L R (s, false) hposL hs
  rcases hLlast : L.getLast? with _ | pb
  · rcases hRhead : R.head? with _ | nb
    · -- prologue to the left, epilogue to the right: no merge
      have hco : mm_coalesce st (heapTotal L) = (heapTotal L, st) := by
        simp [mm_coalesce, hsize, hprev, hnext, hLlast, hRhead]
      refine ⟨L, s, R, by rw [hco, hblocks], by rw [hco], by rw [hco], hL, hR,
        ?_, ?_, by rw [hco]; exact hpos, le_refl s, ?_, ?_⟩
      · intro x hx; rw [hLlast] at hx; cases hx
      · intro x hx; rw [hRhead] at hx; cases hx
      · rw [hco]; simp [nextFreeSize, hRhead]
      · rw [hco]; simp [prevFreeSize, hLlast]
    · obtain ⟨nsz, nb2⟩ := nb
      rcases hnb2 : nb2 with _ | _
      · -- free right neighbour, prologue left: merge right
        subst hnb2
        obtain ⟨R', rfl⟩ : ∃ R', R = (nsz, false) :: R' := by
          cases R with
          | nil => simp at hRhead
          | cons x xs =>
            simp only [List.head?_cons, Option.some.injEq] at hRhead
            exact ⟨xs, by rw [hRhead]⟩
        have hnsz : 0 < nsz := by
          have := hposR (nsz, false) (by simp)
          simpa using this
        have hco1 : (mm_coalesce st (heapTotal L)).1 = heapTotal L := by
          simp [mm_coalesce, hsize, hprev, hnext, hLlast]
        have hco2 : (mm_coalesce st (heapTotal L)).2.blocks
            = L ++ (s + nsz, false) :: R' := by
          simp only [mm_coalesce, hsize, hprev, hnext, hLlast]
          simp only [addToFreeList_blocks, removeFromFreeList_blocks]
          rw [hblocks, replaceAtN_append L (s, false) ((nsz, false) :: R') _ 2 hposL]
          simp [addToFreeList_blocks]
        have hco3 : (mm_coalesce st (heapTotal L)).2.limit = st.limit := by
          simp [mm_coalesce, hsize, hprev, hnext, hLlast,
            addToFreeList_limit, removeFromFreeList_limit]
        have hRd := noAdjFree_decomp [] R' (nsz, false) (by simpa using hR)
        refine ⟨L, s + nsz, R', hco2, by rw [hco1], hco3, hL, hRd.2.1,
          ?_, (hRd.2.2 rfl).2, ?_, by omega, ?_, ?_⟩
        · intro x hx; rw [hLlast] at hx; cases hx
        · rw [hco2]
          intro x hx
          rcases List.mem_append.mp hx with h | h
          · exact hposL x h
          · rcases List.mem_cons.mp h with h | h
            · subst h; simpa using by omega
            · exact hposR x (by simp [h])
        · rw [hco1]; simp only [nextFreeSize, List.head?_cons] <;> omega
        · rw [hco1]; simp only [prevFreeSize, hLlast] <;> omega
      · -- allocated right neighbour, prologue left: no merge
        subst hnb2
        have hco : mm_coalesce st (heapTotal L) = (heapTotal L, st) := by
          simp [mm_coalesce, hsize, hprev, hnext, hLlast, hRhead]
        refine ⟨L, s, R, by rw [hco, hblocks], by rw [hco], by rw [hco], hL, hR,
          ?_, ?_, by rw [hco]; exact hpos, le_refl s, ?_, ?_⟩
        · intro x hx; rw [hLlast] at hx; cases hx
        · intro x hx; rw [hRhead] at hx
          have : (nsz, true) = x := by simpa using hx
          subst this; rfl
        · rw [hco]; simp [nextFreeSize, hRhead]
        · rw [hco]; simp [prevFreeSize, hLlast]
  · obtain ⟨psz, pb2⟩ := pb
    rcases hpb2 : pb2 with _ | _
    · -- free left neighbour
      subst hpb2
      obtain ⟨L2, rfl⟩ : ∃ L2, L = L2 ++ [(psz, false)] :=
        List.getLast?_eq_some_iff.mp hLlast
      have hposL2 : SizesPos L2 := fun x hx => hposL x (by simp [hx])
      have hpsz : 0 < psz := hposL (psz, false) (by simp)
      have hLd := noAdjFree_decomp L2 [] (psz, false) (by simpa using hL)
      have hTot : heapTotal (L2 ++ [(psz, false)]) = heapTotal L2 + psz := by
        rw [heapTotal_append]; simp [heapTotal]
      have hblk3 : st.blocks = L2 ++ (psz, false) :: (s, false) :: R := by
        rw [hblocks]; simp
      have hsize' : sizeAtD st (heapTotal L2 + psz) = s := by
        rw [← hTot]; exact hsize
      have hprev' : prevBlk st.blocks (heapTotal L2 + psz) = some (psz, false) := by
        rw [← hTot, hprev, hLlast]
      have hnext' : getBlk st.blocks (heapTotal L2 + psz + s) = R.head? := by
        rw [← hTot]; exact hnext
      rcases hRhead : R.head? with _ | nb
      · -- epilogue right: merge left only
        have hco1 : (mm_coalesce st (heapTotal (L2 ++ [(psz, false)]))).1
            = heapTotal L2 := by
          simp [mm_coalesce, hTot, hsize', hprev', hnext', hRhead, Nat.add_sub_cancel]
        have hco2 : (mm_coalesce st (heapTotal (L2 ++ [(psz, false)]))).2.blocks
            = L2 ++ (psz + s, false) :: R := by
          have h1 : (mm_coalesce st (heapTotal (L2 ++ [(psz, false)]))).2.blocks
              = replaceAtN st.blocks (heapTotal L2) 2 [(psz + s, false)] := by
            simp [mm_coalesce, hTot, hsize', hprev', hnext', hRhead,
              addToFreeList_blocks, removeFromFreeList_blocks, Nat.add_sub_cancel]
          rw [h1, hblk3, replaceAtN_append L2 (psz, false) ((s, false) :: R) _ 2 hposL2]
          simp
        have hco3 : (mm_coalesce st (heapTotal (L2 ++ [(psz, false)]))).2.limit
            = st.limit := by
          simp [mm_coalesce, hTot, hsize', hprev', hnext', hRhead,
            addToFreeList_limit, removeFromFreeList_limit]
        refine ⟨L2, psz + s, R, hco2, by rw [hco1], hco3, hLd.1, hR,
          hLd.2.2 rfl |>.1, ?_, ?_, by omega, ?_, ?_⟩
        · intro x hx; rw [hRhead] at hx; cases hx
        · rw [hco2]
          intro x hx
          rcases List.mem_append.mp hx with h | h
          · exact hposL2 x h
          · rcases List.mem_cons.mp h with h | h
            · subst h; simpa using by omega
            · exact hposR x h
        · rw [hco1, hTot]; simp only [nextFreeSize, hRhead] <;> omega
        · rw [hco1, hTot]; simp only [prevFreeSize, hLlast] <;> omega
      · obtain ⟨nsz, nb2⟩ := nb
        rcases hnb2 : nb2 with _ | _
        · -- both neighbours free: merge both
          subst hnb2
          obtain ⟨R', rfl⟩ : ∃ R', R = (nsz, false) :: R' := by
            cases R with
            | nil => simp at hRhead
            | cons x xs =>
              simp only [List.head?_cons, Option.some.injEq] at hRhead
              exact ⟨xs, by rw [hRhead]⟩
          have hnsz : 0 < nsz := by
            have := hposR (nsz, false) (by simp)
            simpa using this
          have hblk4 : st.blocks
              = L2 ++ (psz, false) :: (s, false) :: (nsz, false) :: R' := by
            rw [hblocks]; simp
          have hco1 : (mm_coalesce st (heapTotal (L2 ++ [(psz, false)]))).1
              = heapTotal L2 := by
            simp [mm_coalesce, hTot, hsize', hprev', hnext', Nat.add_sub_cancel]
          have hco2 : (mm_coalesce st (heapTotal (L2 ++ [(psz, false)]))).2.blocks
              = L2 ++ (psz + s + nsz, false) :: R' := by
            have h1 : (mm_coalesce st (heapTotal (L2 ++ [(psz, false)]))).2.blocks
                = replaceAtN st.blocks (heapTotal L2) 3 [(psz + s + nsz, false)] := by
              simp [mm_coalesce, hTot, hsize', hprev', hnext',
                addToFreeList_blocks, removeFromFreeList_blocks, Nat.add_sub_cancel]
            rw [h1, hblk4,
              replaceAtN_append L2 (psz, false) ((s, false) :: (nsz, false) :: R') _ 3 hposL2]
            simp
          have hco3 : (mm_coalesce st (heapTotal (L2 ++ [(psz, false)]))).2.limit
              = st.limit := by
            simp [mm_coalesce, hTot, hsize', hprev', hnext',
              addToFreeList_limit, removeFromFreeList_limit]
          have hRd := noAdjFree_decomp [] R' (nsz, false) (by simpa using hR)
          refine ⟨L2, psz + s + nsz, R', hco2, by rw [hco1], hco3, hLd.1, hRd.2.1,
            hLd.2.2 rfl |>.1, (hRd.2.2 rfl).2, ?_, by omega, ?_, ?_⟩
          · rw [hco2]
            intro x hx
            rcases List.mem_append.mp hx with h | h
            · exact hposL2 x h
            · rcases List.mem_cons.mp h with h | h
              · subst h; simpa using by omega
              · exact hposR x (by simp [h])
          · rw [hco1, hTot]; simp only [nextFreeSize, List.head?_cons] <;> omega
          · rw [hco1, hTot]; simp only [prevFreeSize, hLlast] <;> omega
        · -- free left neighbour, allocated right neighbour: merge left
          subst hnb2
          have hco1 : (mm_coalesce st (heapTotal (L2 ++ [(psz, false)]))).1
              = heapTotal L2 := by
            simp [mm_coalesce, hTot, hsize', hprev', hnext', hRhead, Nat.add_sub_cancel]
          have hco2 : (mm_coalesce st (heapTotal (L2 ++ [(psz, false)]))).2.blocks
              = L2 ++ (psz + s, false) :: R := by
            have h1 : (mm_coalesce st (heapTotal (L2 ++ [(psz, false)]))).2.blocks
                = replaceAtN st.blocks (heapTotal L2) 2 [(psz + s, false)] := by
              simp [mm_coalesce, hTot, hsize', hprev', hnext', hRhead,
                addToFreeList_blocks, removeFromFreeList_blocks, Nat.add_sub_cancel]
            rw [h1, hblk3, replaceAtN_append L2 (psz, false) ((s, false) :: R) _ 2 hposL2]
            simp
          have hco3 : (mm_coalesce st (heapTotal (L2 ++ [(psz, false)]))).2.limit
              = st.limit := by
            simp [mm_coalesce, hTot, hsize', hprev', hnext', hRhead,
              addToFreeList_limit, removeFromFreeList_limit]
          refine ⟨L2, psz + s, R, hco2, by rw [hco1], hco3, hLd.1, hR,
            hLd.2.2 rfl |>.1, ?_, ?_, by omega, ?_, ?_⟩
          · intro x hx; rw [hRhead] at hx
            have : (nsz, true) = x := by simpa using hx
            subst this; rfl
          · rw [hco2]
            intro x hx
            rcases List.mem_append.mp hx with h | h
            · exact hposL2 x h
            · rcases List.mem_cons.mp h with h | h
              · subst h; simpa using by omega
              · exact hposR x h
          · rw [hco1, hTot]; simp only [nextFreeSize, hRhead] <;> omega
          · rw [hco1, hTot]; simp only [prevFreeSize, hLlast] <;> omega
    · -- allocated left neighbour
      subst hpb2
      rcases hRhead : R.head? with _ | nb
      · -- epilogue right: no merge
        have hco : mm_coalesce st (heapTotal L) = (heapTotal L, st) := by
          simp [mm_coalesce, hsize, hprev, hnext, hLlast, hRhead]
        refine ⟨L, s, R, by rw [hco, hblocks], by rw [hco], by rw [hco], hL, hR,
          ?_, ?_, by rw [hco]; exact hpos, le_refl s, ?_, ?_⟩
        · intro x hx; rw [hLlast] at hx
          have : (psz, true) = x := by simpa using hx
          subst this; rfl
        · intro x hx; rw [hRhead] at hx; cases hx
        · rw [hco]; simp [nextFreeSize, hRhead]
        · rw [hco]; simp [prevFreeSize, hLlast]
      · obtain ⟨nsz, nb2⟩ := nb
        rcases hnb2 : nb2 with _ | _
        · -- allocated left, free right: merge right
          subst hnb2
          obtain ⟨R', rfl⟩ : ∃ R', R = (nsz, false) :: R' := by
            cases R with
            | nil => simp at hRhead
            | cons x xs =>
              simp only [List.head?_cons, Option.some.injEq] at hRhead
              exact ⟨xs, by rw [hRhead]⟩
          have hnsz : 0 < nsz := by
            have := hposR (nsz, false) (by simp)
            simpa using this
          have hco1 : (mm_coalesce st (heapTotal L)).1 = heapTotal L := by
            simp [mm_coalesce, hsize, hprev, hnext, hLlast]
          have hco2 : (mm_coalesce st (heapTotal L)).2.blocks
              = L ++ (s + nsz, false) :: R' := by
            simp only [mm_coalesce, hsize, hprev, hnext, hLlast]
            simp only [addToFreeList_blocks, removeFromFreeList_blocks]
            rw [hblocks, replaceAtN_append L (s, false) ((nsz, false) :: R') _ 2 hposL]
            simp [addToFreeList_blocks]
          have hco3 : (mm_coalesce st (heapTotal L)).2.limit = st.limit := by
            simp [mm_coalesce, hsize, hprev, hnext, hLlast,
              addToFreeList_limit, removeFromFreeList_limit]
          have hRd := noAdjFree_decomp [] R' (nsz, false) (by simpa using hR)
          refine ⟨L, s + nsz, R', hco2, by rw [hco1], hco3, hL, hRd.2.1,
            ?_, (hRd.2.2 rfl).2, ?_, by omega, ?_, ?_⟩
          · intro x hx; rw [hLlast] at hx
            have : (psz, true) = x := by simpa using hx
            subst this; rfl
          · rw [hco2]
            intro x hx
            rcases List.mem_append.mp hx with h | h
            · exact hposL x h
            · rcases List.mem_cons.mp h with h | h
              · subst h; simpa using by omega
              · exact hposR x (by simp [h])
          · rw [hco1]; simp only [nextFreeSize, List.head?_cons] <;> omega
          · rw [hco1]; simp only [prevFreeSize, hLlast] <;> omega
        · -- both neighbours allocated: no merge
          subst hnb2
          have hco : mm_coalesce st (heapTotal L) = (heapTotal L, st) := by
            simp [mm_coalesce, hsize, hprev, hnext, hLlast, hRhead]
          refine ⟨L, s, R, by rw [hco, hblocks], by rw [hco], by rw [hco], hL, hR,
            ?_, ?_, by rw [hco]; exact hpos, le_refl s, ?_, ?_⟩
          · intro x hx; rw [hLlast] at hx
            have : (psz, true) = x := by simpa using hx
            subst this; rfl
          · intro x hx; rw [hRhead] at hx
            have : (nsz, true) = x := by simpa using hx
            subst this; rfl
          · rw [hco]; simp [nextFreeSize, hRhead]
          · rw [hco]; simp [prevFreeSize, hLlast]


/-- Behaviour of `place` on a free candidate: the split branch frees the
low `csize - asize` bytes and allocates the high `asize` bytes, returning
the high part's payload offset; the no-split branch allocates the whole
candidate in place. -/
theorem place_spec (st : MMSt) (L R : List Blk) (c asize : Nat)
    (hblocks : st.blocks = L ++ (c, false) :: R)
    (hpos : SizesPos st.blocks) :
    (16 ≤ c - asize →
      (mm_place st (heapTotal L) asize).1 = heapTotal L + (c - asize) ∧
      (mm_place st (heapTotal L) asize).2.blocks
        = L ++ (c - asize, false) :: (asize, true) :: R) ∧
    (¬ 16 ≤ c - asize →
      (mm_place st (heapTotal L) asize).1 = heapTotal L ∧
      (mm_place st (heapTotal L) asize).2.blocks = L ++ (c, true) :: R) ∧
    (mm_place st (heapTotal L) asize).2.limit = st.limit := by
  have hposL : SizesPos L := by
    intro x hx; exact hpos x (by rw [hblocks]; simp [hx])
  have hsize : sizeAtD st (heapTotal L) = c := by
    rw [sizeAtD, hblocks, getBlk_at L R (c, false) hposL]
  by_cases hc : 16 ≤ c - asize
  · refine ⟨fun _ => ⟨?_, ?_⟩, fun hn => absurd hc hn, ?_⟩
    · simp [mm_place, hsize, hc]
    · have h1 : (mm_place st (heapTotal L) asize).2.blocks
          = replaceAtN st.blocks (heapTotal L) 1 [(c - asize, false), (asize, true)] := by
        simp [mm_place, hsize, hc, addToFreeList_blocks, removeFromFreeList_blocks]
      rw [h1, hblocks, replaceAtN_append L (c, false) R _ 1 hposL]
      simp
    · simp [mm_place, hsize, hc, addToFreeList_limit, removeFromFreeList_limit]
  · refine ⟨fun hy => absurd hy hc, fun _ => ⟨?_, ?_⟩, ?_⟩
    · simp [mm_place, hsize, hc]
    · have h1 : (mm_place st (heapTotal L) asize).2.blocks
          = replaceAtN st.blocks (heapTotal L) 1 [(c, true)] := by
        simp [mm_place, hsize, hc, addToFreeList_blocks, removeFromFreeList_blocks]
      rw [h1, hblocks, replaceAtN_append L (c, false) R _ 1 hposL]
      simp
    · simp [mm_place, hsize, hc, addToFreeList_limit, removeFromFreeList_limit]

/-- `place` preserves the no-adjacent-free invariant and size positivity
when the candidate is a free block with allocated physical neighbours. -/
theorem place_chain (st : MMSt) (L R : List Blk) (c asize : Nat)
    (hblocks : st.blocks = L ++ (c, false) :: R)
    (hpos : SizesPos st.blocks) (hL : NoAdjFree L) (hR : NoAdjFree R)
    (hlast : lastAlloc L) (hhead : headAlloc R) (ha : 0 < asize) :
    NoAdjFree (mm_place st (heapTotal L) asize).2.blocks ∧
    SizesPos (mm_place st (heapTotal L) asize).2.blocks := by
  obtain ⟨hsplit, hnosplit, hlim⟩ := place_spec st L R c asize hblocks hpos
  have hposL : SizesPos L := by
    intro x hx; exact hpos x (by rw [hblocks]; simp [hx])
  have hposR : SizesPos R := by
    intro x hx; exact hpos x (by rw [hblocks]; simp [hx])
  have hcpos : 0 < c := by
    have := hpos (c, false) (by rw [hblocks]; simp)
    simpa using this
  by_cases hc : 16 ≤ c - asize
  · obtain ⟨h1, h2⟩ := hsplit hc
    rw [h2]
    constructor
    · exact noAdjFree_mid2 L R (c - asize, false) (asize, true) hL hR
        (Or.inr rfl) (fun _ => hlast) (fun h => by simp at h)
    · intro x hx
      rcases List.mem_append.mp hx with h | h
      · exact hposL x h
      · rcases List.mem_cons.mp h with h | h
        · subst h; simpa using by omega
        · rcases List.mem_cons.mp h with h | h
          · subst h; simpa using ha
          · exact hposR x h
  · obtain ⟨h1, h2⟩ := hnosplit hc
    rw [h2]
    constructor
    · exact noAdjFree_mid1 L R (c, true) hL hR
        (fun h => by simp at h) (fun h => by simp at h)
    · intro x hx
      rcases List.mem_append.mp hx with h | h
      · exact hposL x h
      · rcases List.mem_cons.mp h with h | h
        · subst h; simpa using hcpos
        · exact hposR x h

/-- `free` preserves the no-adjacent-free invariant, size positivity and
the growth budget (claim C3's free case). -/
theorem free_preserves (st : MMSt) (ptr : Option Nat)
    (hadj : NoAdjFree st.blocks) (hpos : SizesPos st.blocks) :
    NoAdjFree (mm_free st ptr).blocks ∧ SizesPos (mm_free st ptr).blocks ∧
    (mm_free st ptr).limit = st.limit := by
  match ptr with
  | none => exact ⟨hadj, hpos, rfl⟩
  | some bp =>
    rcases hg : getBlk st.blocks bp with _ | b
    · rw [mm_free, hg]
      exact ⟨hadj, hpos, rfl⟩
    · rw [mm_free, hg]
      obtain ⟨L, R, hbs, hTot⟩ := getBlk_decomp st.blocks bp b hg
      have hposL : SizesPos L := by
        intro x hx; exact hpos x (by rw [hbs]; simp [hx])
      have hdec := noAdjFree_decomp L R b (hbs ▸ hadj)
      set st1 : MMSt :=
        { st with blocks := replaceAtN st.blocks bp 1 [(b.1, false)] } with hst1
      set st2 := addToFreeList st1 bp with hst2
      have hblocks2 : st2.blocks = L ++ (b.1, false) :: R := by
        rw [hst2, addToFreeList_blocks, hst1]
        show replaceAtN st.blocks bp 1 [(b.1, false)] = _
        rw [hbs, ← hTot, replaceAtN_append L b R _ 1 hposL]
        simp
      have hpos2 : SizesPos st2.blocks := by
        rw [hblocks2]
        intro x hx
        rcases List.mem_append.mp hx with h | h
        · exact hposL x h
        · rcases List.mem_cons.mp h with h | h
          · subst h
            have := hpos b (by rw [hbs]; simp)
            simpa using this
          · exact hpos x (by rw [hbs]; simp [h])
      obtain ⟨L', S, R', hb', hTot', hlim', hL', hR', hla', hha', hpos', hsS, -, -⟩ :=
        coalesce_spec st2 L R b.1 hblocks2 hpos2 hdec.1 hdec.2.1
      have hTot2 : heapTotal L = bp := hTot
      rw [hTot2] at hb' hpos' hlim'
      refine ⟨?_, ?_, ?_⟩
      · rw [hb']
        exact noAdjFree_mid1 L' R' (S, false) hL' hR' (fun _ => hla') (fun _ => hha')
      · exact hpos'
      · rw [hlim']
        rw [hst2, addToFreeList_limit, hst1]


/-- The class index is always at most 10. -/
theorem find_list_tail_le (s : Nat) : find_list_tail s ≤ 10 := by
  unfold find_list_tail
  split_ifs <;> omega

/-- Sizes above 32 are classed at index 2 or higher. -/
theorem find_list_tail_ge2 (s : Nat) (h : 32 < s) : 2 ≤ find_list_tail s := by
  unfold find_list_tail
  split_ifs <;> omega

/-- A successful first-fit scan returns the first qualifying member. -/
theorem firstScan_mem (st : MMSt) (asize : Nat) (l : List Nat) (bp : Nat)
    (h : firstScan st asize l = some bp) :
    bp ∈ l ∧ asize ≤ sizeAtD st bp := by
  induction l with
  | nil => simp [firstScan] at h
  | cons x xs ih =>
    rw [firstScan] at h
    by_cases hx : asize ≤ sizeAtD st x
    · rw [if_pos hx] at h
      obtain rfl := Option.some.inj h
      exact ⟨by simp, hx⟩
    · rw [if_neg hx] at h
      obtain ⟨h1, h2⟩ := ih h
      exact ⟨by simp [h1], h2⟩

/-- A failed first-fit scan means no member qualifies. -/
theorem firstScan_none (st : MMSt) (asize : Nat) (l : List Nat)
    (h : firstScan st asize l = none) :
    ∀ a ∈ l, ¬ asize ≤ sizeAtD st a := by
  induction l with
  | nil => simp
  | cons x xs ih =>
    rw [firstScan] at h
    by_cases hx : asize ≤ sizeAtD st x
    · rw [if_pos hx] at h; cases h
    · rw [if_neg hx] at h
      intro a ha
      rcases List.mem_cons.mp ha with h1 | h1
      · subst h1; exact hx
      · exact ih h a h1

/-- Invariant of the best-fit scan: the running best only shrinks, and a
returned candidate is either the incoming one (with the bound unchanged)
or a qualifying member whose size equals the final bound. -/
theorem bestScan_inv (st : MMSt) (asize : Nat) (l : List Nat) (t : Nat)
    (best : Option Nat) (t' : Nat) (r : Option Nat)
    (h : bestScan st asize l t best = (t', r)) :
    t' ≤ t ∧
    ((r = best ∧ t' = t) ∨
      ∃ bp, r = some bp ∧ bp ∈ l ∧ asize ≤ sizeAtD st bp ∧ sizeAtD st bp = t') := by
  induction l generalizing t best with
  | nil =>
    rw [bestScan] at h
    obtain ⟨rfl, rfl⟩ := Prod.mk.injEq .. ▸ h
    exact ⟨le_refl _, Or.inl ⟨rfl, rfl⟩⟩
  | cons x xs ih =>
    rw [bestScan] at h
    by_cases hq : asize ≤ sizeAtD st x
    · rw [if_pos hq] at h
      by_cases hle : sizeAtD st x ≤ t
      · rw [if_pos hle] at h
        obtain ⟨h1, h2⟩ := ih _ _ h
        refine ⟨le_trans h1 hle, ?_⟩
        rcases h2 with ⟨rfl, rfl⟩ | ⟨bp, hbp, hmem, hq2, hsz⟩
        · exact Or.inr ⟨x, rfl, by simp, hq, rfl⟩
        · exact Or.inr ⟨bp, hbp, by simp [hmem], hq2, hsz⟩
      · rw [if_neg hle] at h
        obtain ⟨h1, h2⟩ := ih _ _ h
        refine ⟨h1, ?_⟩
        rcases h2 with h2 | ⟨bp, hbp, hmem, hq2, hsz⟩
        · exact Or.inl h2
        · exact Or.inr ⟨bp, hbp, by simp [hmem], hq2, hsz⟩
    · rw [if_neg hq] at h
      obtain ⟨h1, h2⟩ := ih _ _ h
      refine ⟨h1, ?_⟩
      rcases h2 with h2 | ⟨bp, hbp, hmem, hq2, hsz⟩
      · exact Or.inl h2
      · exact Or.inr ⟨bp, hbp, by simp [hmem], hq2, hsz⟩

/-- A best-fit scan that produces no candidate started with none, kept the
bound, and saw no member qualifying under the bound. -/
theorem bestScan_none (st : MMSt) (asize : Nat) (l : List Nat) (t : Nat)
    (best : Option Nat) (t' : Nat)
    (h : bestScan st asize l t best = (t', none)) :
    best = none ∧ t' = t ∧
    ∀ a ∈ l, ¬ (asize ≤ sizeAtD st a ∧ sizeAtD st a ≤ t) := by
  induction l generalizing t best with
  | nil =>
    rw [bestScan] at h
    obtain ⟨rfl, rfl⟩ := Prod.mk.injEq .. ▸ h
    exact ⟨rfl, rfl, by simp⟩
  | cons x xs ih =>
    rw [bestScan] at h
    by_cases hq : asize ≤ sizeAtD st x
    · rw [if_pos hq] at h
      by_cases hle : sizeAtD st x ≤ t
      · rw [if_pos hle] at h
        obtain ⟨hc, -, -⟩ := ih _ _ h
        cases hc
      · rw [if_neg hle] at h
        obtain ⟨h1, h2, h3⟩ := ih _ _ h
        refine ⟨h1, h2, ?_⟩
        intro a ha
        rcases List.mem_cons.mp ha with h4 | h4
        · subst h4; exact fun hcon => hle hcon.2
        · exact h3 a h4
    · rw [if_neg hq] at h
      obtain ⟨h1, h2, h3⟩ := ih _ _ h
      refine ⟨h1, h2, ?_⟩
      intro a ha
      rcases List.mem_cons.mp ha with h4 | h4
      · subst h4; exact fun hcon => hq hcon.1
      · exact h3 a h4

/-- The final best-fit bound is below every member qualifying under the
incoming bound. -/
theorem bestScan_min (st : MMSt) (asize : Nat) (l : List Nat) (t : Nat)
    (best : Option Nat) (t' : Nat) (r : Option Nat)
    (h : bestScan st asize l t best = (t', r)) :
    ∀ a ∈ l, asize ≤ sizeAtD st a → sizeAtD st a ≤ t → t' ≤ sizeAtD st a := by
  induction l generalizing t best with
  | nil => simp
  | cons x xs ih =>
    rw [bestScan] at h
    by_cases hq : asize ≤ sizeAtD st x
    · by_cases hle : sizeAtD st x ≤ t
      · rw [if_pos hq, if_pos hle] at h
        have hinv := bestScan_inv st asize xs _ _ _ _ h
        intro a ha hqa hta
        rcases List.mem_cons.mp ha with h4 | h4
        · subst h4; exact hinv.1
        · by_cases hax : sizeAtD st a ≤ sizeAtD st x
          · exact ih _ _ h a h4 hqa hax
          · exact le_trans hinv.1 (by omega)
      · rw [if_pos hq, if_neg hle] at h
        intro a ha hqa hta
        rcases List.mem_cons.mp ha with h4 | h4
        · subst h4; omega
        · exact ih _ _ h a h4 hqa hta
    · rw [if_neg hq] at h
      intro a ha hqa hta
      rcases List.mem_cons.mp ha with h4 | h4
      · subst h4; exact absurd hqa hq
      · exact ih _ _ h a h4 hqa hta

/-- Full characterisation of a successful best-fit loop starting at class
`idx` with bound `t`: the candidate comes from the first class at or above
`idx` containing a member qualifying under the bound, and is the smallest
such member of that class. -/
theorem bestFitLoop_spec (st : MMSt) (asize : Nat) :
    ∀ fuel idx t bp, bestFitLoop st asize fuel idx t = some bp → idx ≤ 11 →
    ∃ j, idx ≤ j ∧ j < 11 ∧ bp ∈ st.lists.getD j [] ∧
      asize ≤ sizeAtD st bp ∧ sizeAtD st bp ≤ t ∧
      (∀ i, idx ≤ i → i < j → ∀ a ∈ st.lists.getD i [],
        ¬ (asize ≤ sizeAtD st a ∧ sizeAtD st a ≤ t)) ∧
      (∀ a ∈ st.lists.getD j [], asize ≤ sizeAtD st a → sizeAtD st a ≤ t →
        sizeAtD st bp ≤ sizeAtD st a) := by
  intro fuel
  induction fuel with
  | zero => intro idx t bp h hidx; rw [bestFitLoop] at h; cases h
  | succ fuel ih =>
    intro idx t bp h hidx
    rw [bestFitLoop] at h
    by_cases h11 : idx = 11
    · rw [if_pos h11] at h; cases h
    · rw [if_neg h11] at h
      rcases hscan : bestScan st asize (st.lists.getD idx []) t none with ⟨t', r⟩
      rw [hscan] at h
      rcases r with _ | bp'
      · have h' : bestFitLoop st asize fuel (idx + 1) t' = some bp := h
        obtain ⟨-, ht, hnone⟩ := bestScan_none st asize _ _ _ _ hscan
        rw [ht] at h'
        obtain ⟨j, hj1, hj2, hj3, hj4, hj5, hj6, hj7⟩ := ih (idx + 1) t bp h' (by omega)
        refine ⟨j, by omega, hj2, hj3, hj4, hj5, ?_, hj7⟩
        intro i h1 h2 a ha
        by_cases hi : i = idx
        · subst hi; exact hnone a ha
        · exact hj6 i (by omega) h2 a ha
      · have h' : some bp' = some bp := h
        obtain rfl : bp' = bp := Option.some.inj h'
        obtain ⟨hle, hdis⟩ := bestScan_inv st asize _ _ _ _ _ hscan
        rcases hdis with ⟨hc, -⟩ | ⟨bp2, hbp2, hmem, hq, hsz⟩
        · cases hc
        · obtain rfl : bp2 = bp' := Option.some.inj hbp2.symm
          refine ⟨idx, le_refl idx, by omega, hmem, hq, by omega, ?_, ?_⟩
          · intro i h1 h2; omega
          · intro a ha hqa hta
            have := bestScan_min st asize _ _ _ _ _ hscan a ha hqa hta
            omega

/-- A failed best-fit loop saw no qualifying-under-bound member in any
class from `idx` up to 10. -/
theorem bestFitLoop_none (st : MMSt) (asize : Nat) :
    ∀ fuel idx t, bestFitLoop st asize fuel idx t = none → 11 ≤ idx + fuel →
    ∀ i, idx ≤ i → i < 11 → ∀ a ∈ st.lists.getD i [],
      ¬ (asize ≤ sizeAtD st a ∧ sizeAtD st a ≤ t) := by
  intro fuel
  induction fuel with
  | zero => intro idx t h hf i h1 h2; omega
  | succ fuel ih =>
    intro idx t h hf i h1 h2 a ha
    rw [bestFitLoop] at h
    by_cases h11 : idx = 11
    · omega
    · rw [if_neg h11] at h
      rcases hscan : bestScan st asize (st.lists.getD idx []) t none with ⟨t', r⟩
      rw [hscan] at h
      rcases r with _ | bp'
      · have h' : bestFitLoop st asize fuel (idx + 1) t' = none := h
        obtain ⟨-, ht, hnone⟩ := bestScan_none st asize _ _ _ _ hscan
        rw [ht] at h'
        by_cases hi : i = idx
        · subst hi; exact hnone a ha
        · exact ih (idx + 1) t h' (by omega) i (by omega) h2 a ha
      · have h' : some bp' = none := h
        cases h' 

/-- A hit in the first-fit loop comes from a first-fit scan of a class
outside the best-fit range (so class 0 or 1 for indices within bounds). -/
theorem firstFitLoop_inl (st : MMSt) (asize : Nat) :
    ∀ fuel idx bp, firstFitLoop st asize fuel idx = Sum.inl bp → idx ≤ 10 →
    ∃ j, idx ≤ j ∧ j ≤ 1 ∧ firstScan st asize (st.lists.getD j []) = some bp ∧
      ∀ i, idx ≤ i → i < j → firstScan st asize (st.lists.getD i []) = none := by
  intro fuel
  induction fuel with
  | zero => intro idx bp h _; rw [firstFitLoop] at h; cases h
  | succ fuel ih =>
    intro idx bp h hidx
    rw [firstFitLoop] at h
    by_cases hex : idx = 2 ∨ idx = 3 ∨ idx = 4 ∨ idx = 5 ∨ idx = 6 ∨ idx = 7 ∨
        idx = 8 ∨ idx = 9 ∨ idx = 10
    · rw [if_pos hex] at h; cases h
    · rw [if_neg hex] at h
      have hidx1 : idx ≤ 1 := by omega
      rcases hscan : firstScan st asize (st.lists.getD idx []) with _ | bp'
      · rw [hscan] at h
        obtain ⟨j, hj1, hj2, hj3, hj4⟩ := ih (idx + 1) bp h (by omega)
        refine ⟨j, by omega, hj2, hj3, ?_⟩
        intro i h1 h2
        by_cases hi : i = idx
        · subst hi; exact hscan
        · exact hj4 i (by omega) h2
      · rw [hscan] at h
        obtain rfl : bp' = bp := by simpa using h
        exact ⟨idx, le_refl idx, hidx1, hscan, fun i h1 h2 => by omega⟩

/-- A fall-through of the first-fit loop lands on a class index in 2..10,
having first-fit scanned (without success) every class before it. -/
theorem firstFitLoop_inr (st : MMSt) (asize : Nat) :
    ∀ fuel idx idx', firstFitLoop st asize fuel idx = Sum.inr idx' →
      idx ≤ 10 → 3 ≤ idx + fuel →
    idx ≤ idx' ∧ 2 ≤ idx' ∧ idx' ≤ 10 ∧
      ∀ i, idx ≤ i → i < idx' → firstScan st asize (st.lists.getD i []) = none := by
  intro fuel
  induction fuel with
  | zero =>
    intro idx idx' h hidx hf
    rw [firstFitLoop] at h
    obtain rfl : idx = idx' := by simpa using h
    exact ⟨le_refl _, by omega, hidx, fun i h1 h2 => by omega⟩
  | succ fuel ih =>
    intro idx idx' h hidx hf
    rw [firstFitLoop] at h
    by_cases hex : idx = 2 ∨ idx = 3 ∨ idx = 4 ∨ idx = 5 ∨ idx = 6 ∨ idx = 7 ∨
        idx = 8 ∨ idx = 9 ∨ idx = 10
    · rw [if_pos hex] at h
      obtain rfl : idx = idx' := by simpa using h
      exact ⟨le_refl _, by omega, hidx, fun i h1 h2 => by omega⟩
    · rw [if_neg hex] at h
      rcases hscan : firstScan st asize (st.lists.getD idx []) with _ | bp'
      · rw [hscan] at h
        obtain ⟨h1, h2, h3, h4⟩ := ih (idx + 1) idx' h (by omega) (by omega)
        refine ⟨by omega, h2, h3, ?_⟩
        intro i hi1 hi2
        by_cases hi : i = idx
        · subst hi; exact hscan
        · exact h4 i (by omega) hi2
      · rw [hscan] at h; cases h

/-- A successful search returns a qualifying member of one of the eleven
class lists. -/
theorem find_fit_mem_qual (st : MMSt) (asize bp : Nat)
    (h : mm_find_fit st asize = some bp) :
    (∃ j, j < 11 ∧ bp ∈ st.lists.getD j []) ∧ asize ≤ sizeAtD st bp := by
  rw [mm_find_fit] at h
  rcases hfl : firstFitLoop st asize 12 (find_list_tail asize) with bp' | idx
  · rw [hfl] at h
    have heq : bp' = bp := by simpa using h
    obtain ⟨j, -, hj2, hscan, -⟩ :=
      firstFitLoop_inl st asize 12 (find_list_tail asize) bp' hfl (find_list_tail_le asize)
    obtain ⟨hmem, hqual⟩ := firstScan_mem st asize _ bp' hscan
    exact ⟨⟨j, by omega, heq ▸ hmem⟩, heq ▸ hqual⟩
  · rw [hfl] at h
    obtain ⟨-, -, hidx10, -⟩ := firstFitLoop_inr st asize 12 (find_list_tail asize) idx hfl
      (find_list_tail_le asize) (by omega)
    obtain ⟨j, -, hj2, hmem, hqual, -, -, -⟩ :=
      bestFitLoop_spec st asize 12 idx _ bp h (by omega)
    exact ⟨⟨j, hj2, hmem⟩, hqual⟩


/-- The adjusted request size is at least the minimum block size. -/
theorem adjustSize_ge16 (s : Nat) : 16 ≤ adjustSize s := by
  unfold adjustSize
  split_ifs with h
  · exact le_refl 16
  · have h2 : 3 ≤ (s + 8 + 7) / 8 := by
      have : 24 / 8 ≤ (s + 8 + 7) / 8 := Nat.div_le_div_right (by omega)
      simpa using this
    omega

/-- A member of the `i`-th list is a member of one of the lists. -/
theorem mem_of_mem_getD (ls : List (List Nat)) (i : Nat) (a : Nat)
    (h : a ∈ ls.getD i []) : ∃ l ∈ ls, a ∈ l := by
  by_cases hi : i < ls.length
  · refine ⟨ls.getD i [], ?_, h⟩
    rw [List.getD_eq_getElem ls [] hi]
    exact List.getElem_mem hi
  · rw [List.getD_eq_default ls [] (by omega)] at h
    cases h

/-- The total size of an aligned block list is a multiple of 8. -/
theorem heapTotal_aligned (bs : List Blk) (hal : SizesAligned bs) :
    heapTotal bs % 8 = 0 := by
  induction bs with
  | nil => simp [heapTotal]
  | cons b bs ih =>
    have h1 : b.1 % 8 = 0 := hal b (by simp)
    have h2 : heapTotal bs % 8 = 0 := ih (fun x hx => hal x (by simp [hx]))
    rw [heapTotal_cons]
    omega

/-- The size of a free last block (or 0) is a multiple of 8 in an aligned
heap. -/
theorem prevFreeSize_aligned (L : List Blk) (hal : SizesAligned L) :
    prevFreeSize L % 8 = 0 := by
  rw [prevFreeSize]
  rcases hlast : L.getLast? with _ | pb
  · rfl
  · have hmem : pb ∈ L := by
      obtain ⟨l', rfl⟩ := List.getLast?_eq_some_iff.mp hlast
      simp
    obtain ⟨ps, al⟩ := pb
    cases al
    · exact hal (ps, false) hmem
    · rfl

/-- Behaviour of `extend_heap`: on growth failure the state is untouched;
on success the heap ends in a coalesced free block of at least the granted
size, with allocated physical neighbours, and the invariants hold. -/
theorem extend_spec (st : MMSt) (words : Nat)
    (hadj : NoAdjFree st.blocks) (hpos : SizesPos st.blocks) (hw : 0 < words) :
    ((mm_extend st words).1 = none → (mm_extend st words).2 = st) ∧
    (∀ ret, (mm_extend st words).1 = some ret →
      ∃ L' S R', (mm_extend st words).2.blocks = L' ++ (S, false) :: R' ∧
        heapTotal L' = ret ∧ (mm_extend st words).2.limit = st.limit ∧
        NoAdjFree L' ∧ NoAdjFree R' ∧ lastAlloc L' ∧ headAlloc R' ∧
        SizesPos (mm_extend st words).2.blocks ∧
        (if words % 2 = 1 then (words + 1) * 4 else words * 4) ≤ S ∧
        (SizesAligned st.blocks →
          (if words % 2 = 1 then (words + 1) * 4 else words * 4) % 8 = 0 →
          ret % 8 = 0 ∧ S % 8 = 0)) := by
  have hszpos : 0 < (if words % 2 = 1 then (words + 1) * 4 else words * 4) := by
    split_ifs <;> omega
  by_cases hfail : st.limit < heapTotal st.blocks +
      (if words % 2 = 1 then (words + 1) * 4 else words * 4)
  · constructor
    · intro _
      simp [mm_extend, if_pos hfail]
    · intro ret hret
      rw [mm_extend] at hret
      simp only [if_pos hfail] at hret
      cases hret
  · set size := (if words % 2 = 1 then (words + 1) * 4 else words * 4) with hsz
    set bp := heapTotal st.blocks with hbp
    set st1 : MMSt := { st with blocks := st.blocks ++ [(size, false)] } with hst1
    set st2 := addToFreeList st1 bp with hst2
    have hext : mm_extend st words
        = (some (mm_coalesce st2 bp).1, (mm_coalesce st2 bp).2) := by
      rw [mm_extend]
      simp only [← hsz, if_neg hfail, ← hbp, ← hst1, ← hst2]
    have hblocks2 : st2.blocks = st.blocks ++ (size, false) :: [] := by
      rw [hst2, addToFreeList_blocks, hst1]
    have hpos2 : SizesPos st2.blocks := by
      rw [hblocks2]
      intro x hx
      rcases List.mem_append.mp hx with h | h
      · exact hpos x h
      · have : x = (size, false) := by simpa using h
        subst this
        simpa using hszpos
    obtain ⟨L', S, R', hb', hTot', hlim', hL', hR', hla', hha', hpos', hsS, hspan, hlow⟩ :=
      coalesce_spec st2 st.blocks [] size hblocks2 hpos2 hadj (by simp [NoAdjFree])
    constructor
    · intro hnone
      rw [hext] at hnone
      cases hnone
    · intro ret hret
      rw [hext] at hret
      obtain rfl : (mm_coalesce st2 bp).1 = ret := by simpa using hret
      have hlim2 : st2.limit = st.limit := by
        rw [hst2, addToFreeList_limit, hst1]
      rw [hext]
      refine ⟨L', S, R', ?_, hTot', ?_, hL', hR', hla', hha', ?_, hsS, ?_⟩
      · show (mm_coalesce st2 bp).2.blocks = _
        exact hb'
      · show (mm_coalesce st2 bp).2.limit = st.limit
        rw [hlim', hlim2]
      · show SizesPos (mm_coalesce st2 bp).2.blocks
        exact hpos'
      · intro hal hsize8
        have hT : heapTotal st.blocks % 8 = 0 := heapTotal_aligned st.blocks hal
        have hPF : prevFreeSize st.blocks % 8 = 0 := prevFreeSize_aligned st.blocks hal
        have hN : nextFreeSize ([] : List Blk) = 0 := rfl
        rw [hN] at hspan
        rw [← hbp] at hspan hlow hT
        constructor
        · omega
        · omega

/-- `malloc` preserves the no-adjacent-free invariant and size positivity
on a well-formed heap (claim C3's malloc case). -/
theorem malloc_preserves (st : MMSt) (s : Nat)
    (hadj : NoAdjFree st.blocks) (hpos : SizesPos st.blocks)
    (hlv : ListsValid st) :
    NoAdjFree (mm_malloc st s).2.blocks ∧ SizesPos (mm_malloc st s).2.blocks := by
  by_cases hs0 : s = 0
  · rw [mm_malloc, if_pos hs0]
    exact ⟨hadj, hpos⟩
  · have ha : 0 < adjustSize s := lt_of_lt_of_le (by omega) (adjustSize_ge16 s)
    rcases hff : mm_find_fit st (adjustSize s) with _ | bp
    · -- no fit: grow the heap
      have hw : 0 < max (adjustSize s) 512 / 4 := by
        have h4 : 512 / 4 ≤ max (adjustSize s) 512 / 4 :=
          Nat.div_le_div_right (le_max_right _ _)
        omega
      obtain ⟨hnone, hsome⟩ := extend_spec st (max (adjustSize s) 512 / 4) hadj hpos hw
      have hmg : mm_malloc st s = mallocGrow st (adjustSize s) := by
        rw [mm_malloc, if_neg hs0]
        simp only [hff]
      rcases hpair : mm_extend st (max (adjustSize s) 512 / 4) with ⟨r1, ste⟩
      rw [hpair] at hnone hsome
      rcases r1 with _ | bp'
      · have h2 : ste = st := by simpa using hnone rfl
        have hmg2 : mallocGrow st (adjustSize s) = (none, ste) := by
          simp only [mallocGrow]
          rw [hpair]
        rw [hmg, hmg2, h2]
        exact ⟨hadj, hpos⟩
      · obtain ⟨L', S, R', hb', hTot', hlim', hL', hR', hla', hha', hpos', hsS, -⟩ :=
          hsome bp' rfl
        rcases hpl : mm_place ste bp' (adjustSize s) with ⟨p2, stp⟩
        have hmg2 : mallocGrow st (adjustSize s) = (some p2, stp) := by
          simp only [mallocGrow]
          rw [hpair]
          show (match mm_place ste bp' (adjustSize s) with
            | (p, st'') => (some p, st'')) = (some p2, stp)
          rw [hpl]
        rw [hmg, hmg2]
        show NoAdjFree stp.blocks ∧ SizesPos stp.blocks
        have hb2 : ste.blocks = L' ++ (S, false) :: R' := hb'
        have hpos2 : SizesPos ste.blocks := hpos'
        have hp := place_chain ste L' R' S (adjustSize s) hb2 hpos2 hL' hR' hla' hha' ha
        rw [hTot', hpl] at hp
        exact hp
    · -- fit found
      obtain ⟨⟨j, hj11, hmem⟩, hqual⟩ := find_fit_mem_qual st (adjustSize s) bp hff
      obtain ⟨l, hl, hbl⟩ := mem_of_mem_getD st.lists j bp hmem
      have hfree : freeAt st bp = true := hlv l hl bp hbl
      obtain ⟨c, hc⟩ : ∃ c, getBlk st.blocks bp = some (c, false) := by
        unfold freeAt at hfree
        rcases hgb : getBlk st.blocks bp with _ | b
        · rw [hgb] at hfree; cases hfree
        · rw [hgb] at hfree
          obtain ⟨cs, cb⟩ := b
          cases cb
          · exact ⟨cs, rfl⟩
          · simp at hfree
      obtain ⟨L, R, hbs, hTot⟩ := getBlk_decomp st.blocks bp _ hc
      have hdec := noAdjFree_decomp L R (c, false) (hbs ▸ hadj)
      rcases hpl : mm_place st bp (adjustSize s) with ⟨p2, stp⟩
      have hmal : (mm_malloc st s).2 = stp := by
        simp only [mm_malloc, if_neg hs0, hff, hpl]
      rw [hmal]
      have hp := place_chain st L R c (adjustSize s) hbs hpos hdec.1 hdec.2.1
        (hdec.2.2 rfl).1 (hdec.2.2 rfl).2 ha
      rw [hTot, hpl] at hp
      exact hp


/-- The copying fallback of `realloc` preserves the heap invariants. -/
theorem reallocFallback_preserves (st : MMSt) (mem : List Nat) (p osz asize : Nat)
    (hadj : NoAdjFree st.blocks) (hpos : SizesPos st.blocks)
    (hlv : ListsValid st) :
    NoAdjFree (reallocFallback st mem p osz asize).2.1.blocks ∧
    SizesPos (reallocFallback st mem p osz asize).2.1.blocks := by
  obtain ⟨hadj1, hpos1⟩ := malloc_preserves st asize hadj hpos hlv
  rcases hml : mm_malloc st asize with ⟨r, st1⟩
  rw [hml] at hadj1 hpos1
  rcases r with _ | np
  · have hred : (reallocFallback st mem p osz asize).2.1 = st1 := by
      rw [reallocFallback, hml]
    rw [hred]
    exact ⟨hadj1, hpos1⟩
  · have hred : (reallocFallback st mem p osz asize).2.1 = mm_free st1 (some p) := by
      rw [reallocFallback, hml]
    rw [hred]
    obtain ⟨h1, h2, -⟩ := free_preserves st1 (some p) hadj1 hpos1
    exact ⟨h1, h2⟩

/-- `realloc` preserves the heap invariants on a well-formed heap
(claim C3's resize case). -/
theorem realloc_preserves (st : MMSt) (mem : List Nat) (ptr : Option Nat) (s : Nat)
    (hadj : NoAdjFree st.blocks) (hpos : SizesPos st.blocks)
    (hlv : ListsValid st) :
    NoAdjFree (mm_realloc st mem ptr s).2.1.blocks ∧
    SizesPos (mm_realloc st mem ptr s).2.1.blocks := by
  by_cases hs0 : s = 0
  · subst hs0
    have hred : (mm_realloc st mem ptr 0).2.1 = mm_free st ptr := by
      rw [mm_realloc.eq_def, if_pos rfl]
    rw [hred]
    obtain ⟨h1, h2, -⟩ := free_preserves st ptr hadj hpos
    exact ⟨h1, h2⟩
  · rcases ptr with _ | p
    · rcases hml : mm_malloc st s with ⟨r, st1⟩
      have hred : (mm_realloc st mem none s).2.1 = st1 := by
        rw [mm_realloc.eq_def, if_neg hs0]
        simp only [hml]
      rw [hred]
      obtain ⟨h1, h2⟩ := malloc_preserves st s hadj hpos hlv
      rw [hml] at h1 h2
      exact ⟨h1, h2⟩
    · have ha16 : 16 ≤ adjustSize s := adjustSize_ge16 s
      rcases hg : getBlk st.blocks p with _ | b
      · -- invalid pointer: old size reads as 0, so the fallback is taken
        have hsz : sizeAtD st p = 0 := by rw [sizeAtD, hg]
        have hred : (mm_realloc st mem (some p) s).2.1
            = (reallocFallback st mem p 0 (adjustSize s)).2.1 := by
          rw [mm_realloc.eq_def, if_neg hs0]
          simp only [hsz]
          rw [if_neg (by omega), if_neg (by omega)]
          simp only [Nat.add_zero, hg]
        rw [hred]
        exact reallocFallback_preserves st mem p 0 (adjustSize s) hadj hpos hlv
      · obtain ⟨osz, oal⟩ := b
        obtain ⟨L, R, hbs, hTot⟩ := getBlk_decomp st.blocks p _ hg
        have hposL : SizesPos L := by
          intro x hx; exact hpos x (by rw [hbs]; simp [hx])
        have hposR : SizesPos R := by
          intro x hx; exact hpos x (by rw [hbs]; simp [hx])
        have hoszpos : 0 < osz := by
          have := hpos (osz, oal) (by rw [hbs]; simp)
          simpa using this
        have hdec := noAdjFree_decomp L R (osz, oal) (hbs ▸ hadj)
        have hsz : sizeAtD st p = osz := by rw [sizeAtD, hg]
        have hnext : getBlk st.blocks (p + osz) = R.head? := by
          rw [hbs, ← hTot]
          exact getBlk_at2 L R (osz, oal) hposL hoszpos
        by_cases hc1 : adjustSize s + 16 ≤ osz
        · -- shrink with split
          have hred : (mm_realloc st mem (some p) s).2.1
              = mm_free { st with blocks := (replaceAtN st.blocks p 1
                  [(adjustSize s, true), (osz - adjustSize s, true)]) }
                (some (p + adjustSize s)) := by
            rw [mm_realloc.eq_def, if_neg hs0]
            simp only [hsz]
            rw [if_pos hc1]
          rw [hred]
          set st1 : MMSt := { st with blocks := (replaceAtN st.blocks p 1
              [(adjustSize s, true), (osz - adjustSize s, true)]) } with hst1
          have hblocks1 : st1.blocks
              = L ++ (adjustSize s, true) :: (osz - adjustSize s, true) :: R := by
            rw [hst1]
            show replaceAtN st.blocks p 1 _ = _
            rw [hbs, ← hTot, replaceAtN_append L (osz, oal) R _ 1 hposL]
            simp
          have hadj1 : NoAdjFree st1.blocks := by
            rw [hblocks1]
            exact noAdjFree_mid2 L R (adjustSize s, true) (osz - adjustSize s, true)
              hdec.1 hdec.2.1 (Or.inl rfl) (fun h => by simp at h) (fun h => by simp at h)
          have hpos1 : SizesPos st1.blocks := by
            rw [hblocks1]
            intro x hx
            rcases List.mem_append.mp hx with h | h
            · exact hposL x h
            · rcases List.mem_cons.mp h with h | h
              · subst h; simpa using by omega
              · rcases List.mem_cons.mp h with h | h
                · subst h; simpa using by omega
                · exact hposR x h
          obtain ⟨h1, h2, -⟩ := free_preserves st1 (some (p + adjustSize s)) hadj1 hpos1
          exact ⟨h1, h2⟩
        · by_cases hc2 : adjustSize s ≤ osz
          · -- shrink in place: no state change
            have hred : (mm_realloc st mem (some p) s).2.1 = st := by
              rw [mm_realloc.eq_def, if_neg hs0]
              simp only [hsz]
              rw [if_neg hc1, if_pos hc2]
            rw [hred]
            exact ⟨hadj, hpos⟩
          · -- the old block is too small
            rcases hRh : R.head? with _ | nb
            · -- epilogue follows: fallback
              have hred : (mm_realloc st mem (some p) s).2.1
                  = (reallocFallback st mem p osz (adjustSize s)).2.1 := by
                rw [mm_realloc.eq_def, if_neg hs0]
                simp only [hsz, hnext, hRh]
                rw [if_neg hc1, if_neg hc2]
              rw [hred]
              exact reallocFallback_preserves st mem p osz (adjustSize s) hadj hpos hlv
            · obtain ⟨nsz, nal⟩ := nb
              obtain ⟨R2, rfl⟩ : ∃ R2, R = (nsz, nal) :: R2 := by
                cases R with
                | nil => simp at hRh
                | cons x xs =>
                  simp only [List.head?_cons, Option.some.injEq] at hRh
                  exact ⟨xs, by rw [hRh]⟩
              have hposR2 : SizesPos R2 := fun x hx => hposR x (by simp [hx])
              have hnszpos : 0 < nsz := by
                have := hposR (nsz, nal) (by simp)
                simpa using this
              rcases hnal : nal with _ | _
              · -- following block free: try to grow by merging
                subst hnal
                have hRdec := noAdjFree_decomp [] R2 (nsz, false) (by simpa using hdec.2.1)
                by_cases hc3 : adjustSize s + 16 ≤ osz + nsz
                · -- merge and split off the remainder
                  have hred : (mm_realloc st mem (some p) s).2.1
                      = addToFreeList
                          { removeFromFreeList st (p + osz) with
                            blocks := (replaceAtN
                              (removeFromFreeList st (p + osz)).blocks p 2
                              [(adjustSize s, true), (osz + nsz - adjustSize s, false)]) }
                          (p + adjustSize s) := by
                    rw [mm_realloc.eq_def, if_neg hs0]
                    simp only [hsz, hnext, List.head?_cons]
                    rw [if_neg hc1, if_neg hc2, if_pos hc3]
                  rw [hred]
                  rw [addToFreeList_blocks]
                  have hblocks1 : replaceAtN (removeFromFreeList st (p + osz)).blocks p 2
                      [(adjustSize s, true), (osz + nsz - adjustSize s, false)]
                      = L ++ (adjustSize s, true) :: (osz + nsz - adjustSize s, false) :: R2 := by
                    rw [removeFromFreeList_blocks, hbs, ← hTot,
                      replaceAtN_append L (osz, oal) ((nsz, false) :: R2) _ 2 hposL]
                    simp
                  rw [hblocks1]
                  constructor
                  · exact noAdjFree_mid2 L R2 (adjustSize s, true)
                      (osz + nsz - adjustSize s, false) hdec.1 hRdec.2.1 (Or.inl rfl)
                      (fun h => by simp at h) (fun _ => (hRdec.2.2 rfl).2)
                  · intro x hx
                    rcases List.mem_append.mp hx with h | h
                    · exact hposL x h
                    · rcases List.mem_cons.mp h with h | h
                      · subst h; simpa using by omega
                      · rcases List.mem_cons.mp h with h | h
                        · subst h; simpa using by omega
                        · exact hposR2 x h
                · by_cases hc4 : adjustSize s ≤ osz + nsz
                  · -- merge without a remainder
                    have hred : (mm_realloc st mem (some p) s).2.1
                        = { removeFromFreeList st (p + osz) with
                            blocks := (replaceAtN
                              (removeFromFreeList st (p + osz)).blocks p 2
                              [(osz + nsz, true)]) } := by
                      rw [mm_realloc.eq_def, if_neg hs0]
                      simp only [hsz, hnext, List.head?_cons]
                      rw [if_neg hc1, if_neg hc2, if_neg hc3, if_pos hc4]
                    rw [hred]
                    show NoAdjFree (replaceAtN (removeFromFreeList st (p + osz)).blocks p 2
                        [(osz + nsz, true)]) ∧ _
                    have hblocks1 : replaceAtN (removeFromFreeList st (p + osz)).blocks p 2
                        [(osz + nsz, true)] = L ++ (osz + nsz, true) :: R2 := by
                      rw [removeFromFreeList_blocks, hbs, ← hTot,
                        replaceAtN_append L (osz, oal) ((nsz, false) :: R2) _ 2 hposL]
                      simp
                    rw [hblocks1]
                    constructor
                    · exact noAdjFree_mid1 L R2 (osz + nsz, true) hdec.1 hRdec.2.1
                        (fun h => by simp at h) (fun h => by simp at h)
                    · intro x hx
                      rcases List.mem_append.mp hx with h | h
                      · exact hposL x h
                      · rcases List.mem_cons.mp h with h | h
                        · subst h; simpa using by omega
                        · exact hposR2 x h
                  · -- even merged it is too small: fallback
                    have hred : (mm_realloc st mem (some p) s).2.1
                        = (reallocFallback st mem p osz (adjustSize s)).2.1 := by
                      rw [mm_realloc.eq_def, if_neg hs0]
                      simp only [hsz, hnext, List.head?_cons]
                      rw [if_neg hc1, if_neg hc2, if_neg hc3, if_neg hc4]
                    rw [hred]
                    exact reallocFallback_preserves st mem p osz (adjustSize s) hadj hpos hlv
              · -- following block allocated: fallback
                subst hnal
                have hred : (mm_realloc st mem (some p) s).2.1
                    = (reallocFallback st mem p osz (adjustSize s)).2.1 := by
                  rw [mm_realloc.eq_def, if_neg hs0]
                  simp only [hsz, hnext, List.head?_cons]
                  rw [if_neg hc1, if_neg hc2]
                rw [hred]
                exact reallocFallback_preserves st mem p osz (adjustSize s) hadj hpos hlv

/-- `calloc` preserves the heap invariants (claim C3's zero-allocate
case): its heap effect is that of the underlying `malloc`. -/
theorem calloc_preserves (st : MMSt) (mem : List Nat) (n e : Nat)
    (hadj : NoAdjFree st.blocks) (hpos : SizesPos st.blocks)
    (hlv : ListsValid st) :
    NoAdjFree (mm_calloc st mem n e).2.1.blocks ∧
    SizesPos (mm_calloc st mem n e).2.1.blocks := by
  obtain ⟨h1, h2⟩ := malloc_preserves st (n * e) hadj hpos hlv
  rcases hml : mm_malloc st (n * e) with ⟨r, st1⟩
  rw [hml] at h1 h2
  have hred : (mm_calloc st mem n e).2.1 = st1 := by
    rw [mm_calloc]
    simp only [hml]
  rw [hred]
  exact ⟨h1, h2⟩


/-- Claim C3: after every completed allocator operation (allocate, free,
resize, zeroAllocate) on a well-formed heap, no two physically adjacent
blocks are simultaneously free — immediate coalescing on free and on arena
growth, and the split-remainder paths of allocate and resize, always leave
the heap without adjacent free blocks. -/
theorem op_preserves_no_adjacent_free (st st' : MMSt)
    (hwf : WFheap st) (hstep : OpStep st st') : NoAdjFree st'.blocks := by
  obtain ⟨hadj, hpos, hlv⟩ := hwf
  cases hstep with
  | malloc s => exact (malloc_preserves st s hadj hpos hlv).1
  | free ptr => exact (free_preserves st ptr hadj hpos).1
  | realloc mem ptr s => exact (realloc_preserves st mem ptr s hadj hpos hlv).1
  | calloc mem n e => exact (calloc_preserves st mem n e hadj hpos hlv).1

/-- Witness for C3 at a concrete heap and operation. -/
theorem op_preserves_no_adjacent_free_witness :
    NoAdjFree (mm_free C3st (some 0)).blocks :=
  op_preserves_no_adjacent_free C3st (mm_free C3st (some 0))
    ⟨by simp [NoAdjFree, C3st], by decide, by decide⟩ (OpStep.free C3st (some 0))

/-- Claim C9: for every merge performed by coalescing after a free, the
block reference returned by the coalescing step is the lowest-address
block among those merged (it moves down by exactly the size of a free left
neighbour and never up), and the resulting unified free block at that
address spans the focus together with any free right neighbour. -/
theorem coalesce_returns_lowest_address (st : MMSt) (L R : List Blk) (s : Nat)
    (hblocks : st.blocks = L ++ (s, false) :: R)
    (hpos : SizesPos st.blocks) (hL : NoAdjFree L) (hR : NoAdjFree R) :
    (mm_coalesce st (heapTotal L)).1 + prevFreeSize L = heapTotal L ∧
    (mm_coalesce st (heapTotal L)).1 ≤ heapTotal L ∧
    ∃ S, getBlk (mm_coalesce st (heapTotal L)).2.blocks
        (mm_coalesce st (heapTotal L)).1 = some (S, false) ∧
      (mm_coalesce st (heapTotal L)).1 + S
        = heapTotal L + s + nextFreeSize R := by
  obtain ⟨L', S, R', hb', hTot', -, -, -, -, -, hpos', -, hspan, hlow⟩ :=
    coalesce_spec st L R s hblocks hpos hL hR
  have hposL' : SizesPos L' := by
    intro x hx
    exact hpos' x (by rw [hb']; simp [hx])
  refine ⟨hlow, by omega, S, ?_, hspan⟩
  rw [hb', ← hTot']
  exact getBlk_at L' R' (S, false) hposL'

/-- Witness for C9: freeing the middle block of `C9st` merges it with the
free block to its right; the returned reference stays at offset 16 (the
lowest address of the merged pair) and the unified block spans 32 bytes. -/
theorem coalesce_returns_lowest_address_witness :
    (mm_coalesce C9st (heapTotal [((16 : Nat), true)])).1
        + prevFreeSize [((16 : Nat), true)]
      = heapTotal [((16 : Nat), true)] ∧
    (mm_coalesce C9st (heapTotal [((16 : Nat), true)])).1
      ≤ heapTotal [((16 : Nat), true)] ∧
    ∃ S, getBlk (mm_coalesce C9st (heapTotal [((16 : Nat), true)])).2.blocks
        (mm_coalesce C9st (heapTotal [((16 : Nat), true)])).1 = some (S, false) ∧
      (mm_coalesce C9st (heapTotal [((16 : Nat), true)])).1 + S
        = heapTotal [((16 : Nat), true)] + 16 + nextFreeSize [((16 : Nat), false)] :=
  coalesce_returns_lowest_address C9st [(16, true)] [(16, false)] 16
    (by decide) (by decide) (by simp [NoAdjFree]) (by simp [NoAdjFree])


/-- Appending a block to its free class makes it a member of that class's
list. -/
theorem addToFreeList_mem (st : MMSt) (bp : Nat)
    (hlen : find_list_tail (sizeAtD st bp) < st.lists.length) :
    bp ∈ (addToFreeList st bp).lists.getD (find_list_tail (sizeAtD st bp)) [] := by
  rw [addToFreeList]
  simp [List.getD, List.getElem?_set_self, hlen]

/-- Claim C1 (amended): when `place` puts a request of adjusted size
`asize` into a free candidate whose size `c` exceeds `asize` by at least
the minimum block size, the block is split so that the LOW `c - asize`
bytes become the new free block — appended to the free class matching its
new size — and the HIGH `asize` bytes become the allocated block; the
returned payload pointer is the payload start of that allocated high
part, `candidate + (c - asize)`. -/
theorem place_splits_high_allocated (st : MMSt) (L R : List Blk) (c asize : Nat)
    (hblocks : st.blocks = L ++ (c, false) :: R)
    (hpos : SizesPos st.blocks)
    (hsplit : asize + 16 ≤ c)
    (hlen : st.lists.length = 11) :
    (mm_place st (heapTotal L) asize).1 = heapTotal L + (c - asize) ∧
    (mm_place st (heapTotal L) asize).2.blocks
      = L ++ (c - asize, false) :: (asize, true) :: R ∧
    getBlk (mm_place st (heapTotal L) asize).2.blocks (heapTotal L)
      = some (c - asize, false) ∧
    getBlk (mm_place st (heapTotal L) asize).2.blocks (heapTotal L + (c - asize))
      = some (asize, true) ∧
    heapTotal L ∈ (mm_place st (heapTotal L) asize).2.lists.getD
      (find_list_tail (c - asize)) [] := by
  have hposL : SizesPos L := by
    intro x hx; exact hpos x (by rw [hblocks]; simp [hx])
  have hsize : sizeAtD st (heapTotal L) = c := by
    rw [sizeAtD, hblocks, getBlk_at L R (c, false) hposL]
  have hc : 16 ≤ c - asize := by omega
  obtain ⟨hs, -, -⟩ := place_spec st L R c asize hblocks hpos
  obtain ⟨h1, h2⟩ := hs hc
  have hget1 : getBlk (mm_place st (heapTotal L) asize).2.blocks (heapTotal L)
      = some (c - asize, false) := by
    rw [h2]
    exact getBlk_at L _ _ hposL
  have hget2 : getBlk (mm_place st (heapTotal L) asize).2.blocks
      (heapTotal L + (c - asize)) = some (asize, true) := by
    rw [h2]
    have := getBlk_at2 L ((asize, true) :: R) (c - asize, false) hposL (by omega)
    simpa using this
  refine ⟨h1, h2, hget1, hget2, ?_⟩
  set st1 := removeFromFreeList st (heapTotal L) with hst1
  set st2 : MMSt := { st1 with blocks := (replaceAtN st1.blocks (heapTotal L) 1
      [(c - asize, false), (asize, true)]) } with hst2
  have hplEq : (mm_place st (heapTotal L) asize).2 = addToFreeList st2 (heapTotal L) := by
    simp only [mm_place, hsize]
    rw [if_pos hc]
  have hsize2 : sizeAtD st2 (heapTotal L) = c - asize := by
    have hb2 : st2.blocks = (mm_place st (heapTotal L) asize).2.blocks := by
      rw [hplEq, addToFreeList_blocks]
    rw [sizeAtD, hb2, hget1]
  have hlen2 : find_list_tail (sizeAtD st2 (heapTotal L)) < st2.lists.length := by
    have hle : find_list_tail (sizeAtD st2 (heapTotal L)) ≤ 10 := find_list_tail_le _
    have hl2 : st2.lists.length = 11 := by
      rw [hst2]
      show st1.lists.length = 11
      rw [hst1, removeFromFreeList]
      simp [hlen]
    omega
  have hmem := addToFreeList_mem st2 (heapTotal L) hlen2
  rw [hsize2] at hmem
  rw [hplEq]
  exact hmem

/-- Witness for C1 (amended) at the 48-byte candidate of `C1st` with
`asize = 16`. -/
theorem place_splits_high_allocated_witness :
    (mm_place C1st (heapTotal []) 16).1 = heapTotal [] + (48 - 16) ∧
    (mm_place C1st (heapTotal []) 16).2.blocks
      = [] ++ (48 - 16, false) :: (16, true) :: [] ∧
    getBlk (mm_place C1st (heapTotal []) 16).2.blocks (heapTotal [])
      = some (48 - 16, false) ∧
    getBlk (mm_place C1st (heapTotal []) 16).2.blocks (heapTotal [] + (48 - 16))
      = some (16, true) ∧
    heapTotal [] ∈ (mm_place C1st (heapTotal []) 16).2.lists.getD
      (find_list_tail (48 - 16)) [] :=
  place_splits_high_allocated C1st [] [] 48 16 (by decide) (by decide)
    (by decide) (by decide)

/-- Claim C8: `realloc(ptr, 0)` is exactly `free(ptr)` returning null (for
every pointer, null included), and `realloc(null, size)` is exactly
`malloc(size)` (for every size, zero included): the resulting state and
the returned value are those of the delegated operation, with the byte
store untouched. -/
theorem realloc_delegates_free_and_malloc (st : MMSt) (mem : List Nat)
    (ptr : Option Nat) (s : Nat) :
    mm_realloc st mem ptr 0 = (none, mm_free st ptr, mem) ∧
    mm_realloc st mem none s = ((mm_malloc st s).1, (mm_malloc st s).2, mem) := by
  constructor
  · rw [mm_realloc.eq_def, if_pos rfl]
  · by_cases hs0 : s = 0
    · subst hs0
      rw [mm_realloc.eq_def, if_pos rfl]
      rw [mm_malloc, if_pos rfl]
      rfl
    · rw [mm_realloc.eq_def, if_neg hs0]


/-- The adjusted size equals `max 16 (8 * ceil((s + 8) / 8))` for positive
requests. -/
theorem adjustSize_eq_max (s : Nat) (h : 1 ≤ s) :
    adjustSize s = max 16 (8 * ((s + 8 + 7) / 8)) := by
  unfold adjustSize
  split_ifs <;> omega

/-- The adjusted size is a multiple of the 8-byte alignment unit. -/
theorem adjustSize_mod8 (s : Nat) : adjustSize s % 8 = 0 := by
  unfold adjustSize
  split_ifs <;> omega

/-- The adjusted size covers the request plus the 8 bytes of header and
footer overhead. -/
theorem adjustSize_ge_add (s : Nat) : s + 8 ≤ adjustSize s := by
  unfold adjustSize
  split_ifs <;> omega

/-- The block `place` hands back: allocated, at least `asize` large, and
located either at the candidate or at the candidate plus the split-off
slack. -/
theorem place_result_block (st : MMSt) (L R : List Blk) (c asize : Nat)
    (hblocks : st.blocks = L ++ (c, false) :: R)
    (hpos : SizesPos st.blocks) (hq : asize ≤ c) :
    ∃ b, getBlk (mm_place st (heapTotal L) asize).2.blocks
        (mm_place st (heapTotal L) asize).1 = some b ∧ b.2 = true ∧ asize ≤ b.1 ∧
      ((mm_place st (heapTotal L) asize).1 = heapTotal L ∨
       (mm_place st (heapTotal L) asize).1 = heapTotal L + (c - asize)) := by
  have hposL : SizesPos L := by
    intro x hx; exact hpos x (by rw [hblocks]; simp [hx])
  obtain ⟨hsplit, hnosplit, -⟩ := place_spec st L R c asize hblocks hpos
  by_cases hc : 16 ≤ c - asize
  · obtain ⟨h1, h2⟩ := hsplit hc
    refine ⟨(asize, true), ?_, rfl, le_refl asize, Or.inr h1⟩
    rw [h1, h2]
    have := getBlk_at2 L ((asize, true) :: R) (c - asize, false) hposL (by omega)
    simpa using this
  · obtain ⟨h1, h2⟩ := hnosplit hc
    refine ⟨(c, true), ?_, rfl, hq, Or.inl h1⟩
    rw [h1, h2]
    exact getBlk_at L _ _ hposL

/-- Claim C4: on a well-formed aligned heap, a successful `allocate(s)`
for `s ≥ 1` returns a pointer aligned to the 8-byte unit, pointing at an
allocated block whose size is at least `s + 8` — so the usable payload
(block size minus the 8 bytes of header and footer overhead) is at least
`s` — and the adjusted block size is `max 16 (8 * ceil((s + 8) / 8))`. -/
theorem malloc_aligned_payload (st : MMSt) (s p : Nat) (st' : MMSt)
    (hadj : NoAdjFree st.blocks) (hpos : SizesPos st.blocks)
    (hal : SizesAligned st.blocks) (hlv : ListsValid st)
    (hs1 : 1 ≤ s) (hml : mm_malloc st s = (some p, st')) :
    p % 8 = 0 ∧
    adjustSize s = max 16 (8 * ((s + 8 + 7) / 8)) ∧
    s + 8 ≤ adjustSize s ∧
    ∃ b, getBlk st'.blocks p = some b ∧ b.2 = true ∧ s + 8 ≤ b.1 := by
  have hs0 : s ≠ 0 := by omega
  have hmod := adjustSize_mod8 s
  have hge := adjustSize_ge_add s
  have hmain : p % 8 = 0 ∧
      ∃ b, getBlk st'.blocks p = some b ∧ b.2 = true ∧ s + 8 ≤ b.1 := by
    rcases hff : mm_find_fit st (adjustSize s) with _ | bp
    · -- no fit: the block comes from freshly grown (and coalesced) space
      have hw : 0 < max (adjustSize s) 512 / 4 := by
        have h4 : 512 / 4 ≤ max (adjustSize s) 512 / 4 :=
          Nat.div_le_div_right (le_max_right _ _)
        omega
      obtain ⟨hnone, hsome⟩ := extend_spec st (max (adjustSize s) 512 / 4) hadj hpos hw
      have hmg : mm_malloc st s = mallocGrow st (adjustSize s) := by
        rw [mm_malloc, if_neg hs0]
        simp only [hff]
      rcases hpair : mm_extend st (max (adjustSize s) 512 / 4) with ⟨r1, ste⟩
      rw [hpair] at hnone hsome
      rcases r1 with _ | bp'
      · have hmg2 : mallocGrow st (adjustSize s) = (none, ste) := by
          simp only [mallocGrow]
          rw [hpair]
        rw [hmg, hmg2] at hml
        simp at hml
      · obtain ⟨L', S, R', hb', hTot', hlim', hL', hR', hla', hha', hpos', hsS, halim⟩ :=
          hsome bp' rfl
        have hsize8 : (if (max (adjustSize s) 512 / 4) % 2 = 1
            then ((max (adjustSize s) 512 / 4) + 1) * 4
            else (max (adjustSize s) 512 / 4) * 4) = max (adjustSize s) 512 := by
          split_ifs with h <;> omega
        have hS8 := halim hal (by rw [hsize8]; omega)
        have hSize_ge : adjustSize s ≤ S := by
          rw [hsize8] at hsS
          calc adjustSize s ≤ max (adjustSize s) 512 := le_max_left _ _
            _ ≤ S := hsS
        rcases hpl : mm_place ste bp' (adjustSize s) with ⟨p2, stp⟩
        have hmg2 : mallocGrow st (adjustSize s) = (some p2, stp) := by
          simp only [mallocGrow]
          rw [hpair]
          show (match mm_place ste bp' (adjustSize s) with
            | (p, st'') => (some p, st'')) = (some p2, stp)
          rw [hpl]
        rw [hmg, hmg2] at hml
        injection hml with h1 h2
        injection h1 with h1
        subst h1
        subst h2
        have hblk := place_result_block ste L' R' S (adjustSize s) hb' hpos' hSize_ge
        rw [hTot', hpl] at hblk
        obtain ⟨b, hgb, hb2, hbsz, hdisj⟩ := hblk
        have hdisj2 : p2 = bp' ∨ p2 = bp' + (S - adjustSize s) := hdisj
        have hgb2 : getBlk stp.blocks p2 = some b := hgb
        constructor
        · rcases hdisj2 with rfl | rfl <;> omega
        · exact ⟨b, hgb2, hb2, by omega⟩
    · -- fit found in a free list
      obtain ⟨⟨j, hj11, hmem⟩, hqual⟩ := find_fit_mem_qual st (adjustSize s) bp hff
      obtain ⟨l, hl, hbl⟩ := mem_of_mem_getD st.lists j bp hmem
      have hfree : freeAt st bp = true := hlv l hl bp hbl
      obtain ⟨c, hc⟩ : ∃ c, getBlk st.blocks bp = some (c, false) := by
        unfold freeAt at hfree
        rcases hgb : getBlk st.blocks bp with _ | b
        · rw [hgb] at hfree; cases hfree
        · rw [hgb] at hfree
          obtain ⟨cs, cb⟩ := b
          cases cb
          · exact ⟨cs, rfl⟩
          · simp at hfree
      have hbpal : bp % 8 = 0 := getBlk_aligned st.blocks bp _ hal hc
      have hcal : c % 8 = 0 := hal (c, false) (getBlk_mem _ _ _ hc)
      have hqc : adjustSize s ≤ c := by
        have hseq : sizeAtD st bp = c := by rw [sizeAtD, hc]
        omega
      obtain ⟨L, R, hbs, hTot⟩ := getBlk_decomp st.blocks bp _ hc
      rcases hpl : mm_place st bp (adjustSize s) with ⟨p2, stp⟩
      have hmal : mm_malloc st s = (some p2, stp) := by
        rw [mm_malloc, if_neg hs0]
        simp only [hff, hpl]
      rw [hmal] at hml
      injection hml with h1 h2
      injection h1 with h1
      subst h1
      subst h2
      have hblk := place_result_block st L R c (adjustSize s) hbs hpos hqc
      rw [hTot, hpl] at hblk
      obtain ⟨b, hgb, hb2, hbsz, hdisj⟩ := hblk
      have hdisj2 : p2 = bp ∨ p2 = bp + (c - adjustSize s) := hdisj
      have hgb2 : getBlk stp.blocks p2 = some b := hgb
      constructor
      · rcases hdisj2 with rfl | rfl <;> omega
      · exact ⟨b, hgb2, hb2, by omega⟩
  exact ⟨hmain.1, adjustSize_eq_max s hs1, hge, hmain.2⟩

/-- Sizes at most 32 are classed at index 0 or 1. -/
theorem find_list_tail_le1 (s : Nat) (h : s ≤ 32) : find_list_tail s ≤ 1 := by
  unfold find_list_tail
  split_ifs <;> omega

/-- Starting at a class index in 2..10, the first-fit loop exits at once. -/
theorem firstFitLoop_exit (st : MMSt) (asize fuel idx : Nat)
    (h2 : 2 ≤ idx) (h10 : idx ≤ 10) :
    firstFitLoop st asize (fuel + 1) idx = Sum.inr idx := by
  rw [firstFitLoop]
  rw [if_pos (by omega)]

/-- Claim C2 (amended): the search scans size classes in ascending order
from `classOf(asize)`, but first-fit is used only for the two SMALLEST
classes (bounds 16 and 32).  Every class from the 64-bound class upward —
all nine remaining classes, not only the two largest — is scanned
best-fit under the `2^30` cap: the result is the smallest qualifying node
of the first such class that yields any candidate, and the search does not
continue past that class. -/
theorem find_fit_policy_amended (st : MMSt) (asize bp : Nat) :
    (32 < asize → mm_find_fit st asize = some bp →
      ∃ j, find_list_tail asize ≤ j ∧ j < 11 ∧ bp ∈ st.lists.getD j [] ∧
        asize ≤ sizeAtD st bp ∧ sizeAtD st bp ≤ 2 ^ 30 ∧
        (∀ i, find_list_tail asize ≤ i → i < j → ∀ a ∈ st.lists.getD i [],
          ¬ (asize ≤ sizeAtD st a ∧ sizeAtD st a ≤ 2 ^ 30)) ∧
        (∀ a ∈ st.lists.getD j [], asize ≤ sizeAtD st a → sizeAtD st a ≤ 2 ^ 30 →
          sizeAtD st bp ≤ sizeAtD st a)) ∧
    (asize ≤ 32 →
      firstScan st asize (st.lists.getD (find_list_tail asize) []) = some bp →
      mm_find_fit st asize = some bp) := by
  constructor
  · intro h32 h
    have hge2 := find_list_tail_ge2 asize h32
    have hle10 := find_list_tail_le asize
    rw [mm_find_fit, firstFitLoop_exit st asize 11 (find_list_tail asize) hge2 hle10] at h
    exact bestFitLoop_spec st asize 12 (find_list_tail asize) (2 ^ 30) bp h (by omega)
  · intro h32 hscan
    have hle1 := find_list_tail_le1 asize h32
    rw [mm_find_fit]
    have hfl : firstFitLoop st asize 12 (find_list_tail asize)
        = Sum.inl bp := by
      rw [firstFitLoop]
      rw [if_neg (by omega), hscan]
    rw [hfl]

/-- Witness for C2 (amended) on `C2st` with `asize = 40`: class 2 is
scanned best-fit and returns the 48-byte block at offset 80. -/
theorem find_fit_policy_amended_witness :
    ∃ j, find_list_tail 40 ≤ j ∧ j < 11 ∧ (80 : Nat) ∈ C2st.lists.getD j [] ∧
      40 ≤ sizeAtD C2st 80 ∧ sizeAtD C2st 80 ≤ 2 ^ 30 ∧
      (∀ i, find_list_tail 40 ≤ i → i < j → ∀ a ∈ C2st.lists.getD i [],
        ¬ (40 ≤ sizeAtD C2st a ∧ sizeAtD C2st a ≤ 2 ^ 30)) ∧
      (∀ a ∈ C2st.lists.getD j [], 40 ≤ sizeAtD C2st a → sizeAtD C2st a ≤ 2 ^ 30 →
        sizeAtD C2st 80 ≤ sizeAtD C2st a) :=
  (find_fit_policy_amended C2st 40 80).1 (by decide) (by decide)

/-- Claim C10: `find_fit`'s best-fit stage starts its running best at
`2^30` and accepts a candidate only when its size is at most the running
best, so (provided the two first-fit classes only hold blocks within their
32-byte bound) the search never returns a block larger than `2^30`; when
every qualifying free block in the class lists exceeds `2^30` bytes, the
search reports no fit, and `malloc` then takes the arena-growth path even
though a sufficiently large free block exists. -/
theorem find_fit_best_fit_cap (st : MMSt) (asize : Nat)
    (h0 : ∀ a ∈ st.lists.getD 0 [], sizeAtD st a ≤ 32)
    (h1 : ∀ a ∈ st.lists.getD 1 [], sizeAtD st a ≤ 32) :
    (∀ bp, mm_find_fit st asize = some bp → sizeAtD st bp ≤ 2 ^ 30) ∧
    ((∀ k, k < 11 → ∀ a ∈ st.lists.getD k [], asize ≤ sizeAtD st a →
        2 ^ 30 < sizeAtD st a) →
      mm_find_fit st asize = none ∧
      ∀ s', s' ≠ 0 → adjustSize s' = asize →
        mm_malloc st s' = mallocGrow st asize) := by
  have hbound : ∀ j bp', j ≤ 1 →
      firstScan st asize (st.lists.getD j []) = some bp' →
      sizeAtD st bp' ≤ 32 := by
    intro j bp' hj hscan
    obtain ⟨hmem, -⟩ := firstScan_mem st asize _ bp' hscan
    interval_cases j
    · exact h0 bp' hmem
    · exact h1 bp' hmem
  constructor
  · intro bp h
    rw [mm_find_fit] at h
    rcases hfl : firstFitLoop st asize 12 (find_list_tail asize) with bp' | idx
    · rw [hfl] at h
      have heq : bp' = bp := by simpa using h
      subst heq
      obtain ⟨j, -, hj1, hscan, -⟩ :=
        firstFitLoop_inl st asize 12 (find_list_tail asize) bp' hfl
          (find_list_tail_le asize)
      have := hbound j bp' hj1 hscan
      omega
    · rw [hfl] at h
      obtain ⟨-, -, hidx10, -⟩ := firstFitLoop_inr st asize 12 (find_list_tail asize)
        idx hfl (find_list_tail_le asize) (by omega)
      obtain ⟨j, -, -, -, -, hcap, -, -⟩ :=
        bestFitLoop_spec st asize 12 idx _ bp h (by omega)
      exact hcap
  · intro hq
    have hnone : mm_find_fit st asize = none := by
      rw [mm_find_fit]
      rcases hfl : firstFitLoop st asize 12 (find_list_tail asize) with bp' | idx
      · obtain ⟨j, -, hj1, hscan, -⟩ :=
          firstFitLoop_inl st asize 12 (find_list_tail asize) bp' hfl
            (find_list_tail_le asize)
        obtain ⟨hmem, hqual⟩ := firstScan_mem st asize _ bp' hscan
        have h32 := hbound j bp' hj1 hscan
        have := hq j (by omega) bp' hmem hqual
        omega
      · show bestFitLoop st asize 12 idx (2 ^ 30) = none
        rcases hbl : bestFitLoop st asize 12 idx (2 ^ 30) with _ | bp2
        · rfl
        · exfalso
          obtain ⟨-, -, hidx10, -⟩ := firstFitLoop_inr st asize 12
            (find_list_tail asize) idx hfl (find_list_tail_le asize) (by omega)
          obtain ⟨j, -, hj11, hmem, hqual, hcap, -, -⟩ :=
            bestFitLoop_spec st asize 12 idx _ bp2 hbl (by omega)
          have := hq j hj11 bp2 hmem hqual
          omega
    refine ⟨hnone, ?_⟩
    intro s' hs0 hadj
    rw [mm_malloc, if_neg hs0]
    simp only [hadj, hnone]

/-- Witness for C10 on `C10st` (whose only free block has `2^30 + 8`
bytes) with `asize = 16`: the search reports no fit. -/
theorem find_fit_best_fit_cap_witness : mm_find_fit C10st 16 = none :=
  (((find_fit_best_fit_cap C10st 16 (by decide) (by decide)).2) (by decide)).1


/-- Witness for C4 on `C4st` with request size 9: the returned pointer 0
is 8-aligned and the placed block holds at least 9 + 8 bytes. -/
theorem malloc_aligned_payload_witness :
    (0 : Nat) % 8 = 0 ∧
    adjustSize 9 = max 16 (8 * ((9 + 8 + 7) / 8)) ∧
    9 + 8 ≤ adjustSize 9 ∧
    ∃ b, getBlk (⟨[(24, true)], [[], [], [], [], [], [], [], [], [], [], []],
        24⟩ : MMSt).blocks 0 = some b ∧ b.2 = true ∧ 9 + 8 ≤ b.1 :=
  malloc_aligned_payload C4st 9 0
    ⟨[(24, true)], [[], [], [], [], [], [], [], [], [], [], []], 24⟩
    (by simp [NoAdjFree, C4st]) (by decide) (by decide) (by decide)
    (by decide) (by decide)

/-- A failing `extend_heap` leaves the state untouched. -/
theorem extend_none_id (st : MMSt) (w : Nat) (ste : MMSt)
    (h : mm_extend st w = (none, ste)) : ste = st := by
  by_cases hfail : st.limit < heapTotal st.blocks +
      (if w % 2 = 1 then (w + 1) * 4 else w * 4)
  · rw [mm_extend] at h
    simp only [if_pos hfail] at h
    injection h with h1 h2
    exact h2.symm
  · set size := (if w % 2 = 1 then (w + 1) * 4 else w * 4) with hsz
    set bp := heapTotal st.blocks with hbp
    set st1 : MMSt := { st with blocks := st.blocks ++ [(size, false)] } with hst1
    set st2 := addToFreeList st1 bp with hst2
    have hext : mm_extend st w
        = (some (mm_coalesce st2 bp).1, (mm_coalesce st2 bp).2) := by
      rw [mm_extend]
      simp only [← hsz, if_neg hfail, ← hbp, ← hst1, ← hst2]
    rw [hext] at h
    simp at h

/-- A null result from `malloc` leaves the state untouched. -/
theorem malloc_none_id (st : MMSt) (s : Nat) (st1 : MMSt)
    (h : mm_malloc st s = (none, st1)) : st1 = st := by
  by_cases hs0 : s = 0
  · rw [mm_malloc, if_pos hs0] at h
    injection h with h1 h2
    exact h2.symm
  · rcases hff : mm_find_fit st (adjustSize s) with _ | bp
    · have hmg : mm_malloc st s = mallocGrow st (adjustSize s) := by
        rw [mm_malloc, if_neg hs0]
        simp only [hff]
      rcases hpair : mm_extend st (max (adjustSize s) 512 / 4) with ⟨r1, ste⟩
      rcases r1 with _ | bp'
      · have hmg2 : mallocGrow st (adjustSize s) = (none, ste) := by
          simp only [mallocGrow]
          rw [hpair]
        rw [hmg, hmg2] at h
        injection h with h1 h2
        rw [← h2]
        exact extend_none_id st _ ste hpair
      · rcases hpl : mm_place ste bp' (adjustSize s) with ⟨p2, stp⟩
        have hmg2 : mallocGrow st (adjustSize s) = (some p2, stp) := by
          simp only [mallocGrow]
          rw [hpair]
          show (match mm_place ste bp' (adjustSize s) with
            | (p, st'') => (some p, st'')) = (some p2, stp)
          rw [hpl]
        rw [hmg, hmg2] at h
        simp at h
    · rcases hpl : mm_place st bp (adjustSize s) with ⟨p2, stp⟩
      have hfit : mm_malloc st s = (some p2, stp) := by
        rw [mm_malloc, if_neg hs0]
        simp only [hff]
        show (match mm_place st bp (adjustSize s) with
          | (p, st') => (some p, st')) = (some p2, stp)
        rw [hpl]
      rw [hfit] at h
      simp at h

/-- Reading entry `i` of a list built by mapping over `List.range`. -/
theorem mapRange_getD (f : Nat → Nat) (n i : Nat) (hi : i < n) :
    ((List.range n).map f).getD i 0 = f i := by
  rw [List.getD_eq_getElem?_getD, List.getElem?_map, List.getElem?_range hi]
  rfl

/-- Byte-level reading of the flat-store `memcpy`. -/
theorem memcpyBytes_getD (m : List Nat) (dst src len i : Nat) (hi : i < m.length) :
    (memcpyBytes m dst src len).getD i 0
      = if dst ≤ i ∧ i < dst + len then m.getD (src + (i - dst)) 0
        else m.getD i 0 := by
  rw [memcpyBytes, mapRange_getD _ _ _ hi]

/-- Byte-level reading of the flat-store `memset` through a valid pointer. -/
theorem memsetBytes_getD (m : List Nat) (d v len i : Nat) (hi : i < m.length)
    (m1 : List Nat) (h : memsetBytes m (some d) v len = some m1) :
    m1.getD i 0 = if d ≤ i ∧ i < d + len then v else m.getD i 0 := by
  simp only [memsetBytes] at h
  injection h with h1
  rw [← h1, mapRange_getD _ _ _ hi]

/-- Claim C5 (amended): in the fallback branch of resize — old block too
small, and the following block free-but-insufficient or not free — the
implementation allocates a fresh block and copies exactly `oldsize` bytes,
the old block's FULL size as read from its header (header and footer
overhead included), not `min(oldPayloadSize, newSize)` bytes of payload;
it then frees the old block and returns the new pointer.  When the fresh
allocation fails, the heap and the byte store are untouched and the
operation returns null. -/
theorem realloc_fallback_copies_oldsize (st : MMSt) (mem : List Nat)
    (p s oldsize : Nat) (hs0 : s ≠ 0)
    (hsz : sizeAtD st p = oldsize)
    (hsmall : oldsize < adjustSize s)
    (hnext : ∀ nsz, getBlk st.blocks (p + oldsize) = some (nsz, false) →
      oldsize + nsz < adjustSize s) :
    (∀ st1, mm_malloc st (adjustSize s) = (none, st1) →
      mm_realloc st mem (some p) s = (none, st, mem)) ∧
    (∀ np st1, mm_malloc st (adjustSize s) = (some np, st1) →
      mm_realloc st mem (some p) s
        = (some np, mm_free st1 (some p), memcpyBytes mem np p oldsize) ∧
      (∀ i, i < mem.length → np ≤ i → i < np + oldsize →
        (memcpyBytes mem np p oldsize).getD i 0 = mem.getD (p + (i - np)) 0) ∧
      (∀ i, i < mem.length → (i < np ∨ np + oldsize ≤ i) →
        (memcpyBytes mem np p oldsize).getD i 0 = mem.getD i 0)) := by
  have hred : mm_realloc st mem (some p) s
      = reallocFallback st mem p oldsize (adjustSize s) := by
    rw [mm_realloc.eq_def, if_neg hs0]
    simp only [hsz]
    rw [if_neg (by omega), if_neg (by omega)]
    rcases hnx : getBlk st.blocks (p + oldsize) with _ | nb
    · simp only [hnx]
    · obtain ⟨nsz, nal⟩ := nb
      rcases nal
      · have hlt := hnext nsz hnx
        simp only [hnx]
        rw [if_neg (by omega), if_neg (by omega)]
      · simp only [hnx]
  constructor
  · intro st1 hml
    rw [hred, reallocFallback, hml]
    rw [malloc_none_id st (adjustSize s) st1 hml]
  · intro np st1 hml
    refine ⟨?_, ?_, ?_⟩
    · rw [hred, reallocFallback, hml]
    · intro i hi h1 h2
      rw [memcpyBytes_getD mem np p oldsize i hi, if_pos ⟨h1, h2⟩]
    · intro i hi hout
      rw [memcpyBytes_getD mem np p oldsize i hi, if_neg (by omega)]

/-- Witness for C5 (amended) on `C5st`/`C5mem`: resizing the 16-byte
block at 0 to 20 bytes copies 16 bytes — byte 40 of the new payload
receives old byte 8, which sits in the old block's footer region, past
the old payload. -/
theorem realloc_fallback_copies_oldsize_witness :
    mm_realloc C5st C5mem (some 0) 20
      = (some 32, mm_free (⟨[(16, true), (16, true), (48, true)],
          [[], [], [], [], [], [], [], [], [], [], []], 80⟩ : MMSt) (some 0),
        memcpyBytes C5mem 32 0 16) ∧
    (memcpyBytes C5mem 32 0 16).getD 40 0 = C5mem.getD (0 + (40 - 32)) 0 ∧
    (memcpyBytes C5mem 32 0 16).getD 8 0 = C5mem.getD 8 0 :=
  ⟨((realloc_fallback_copies_oldsize C5st C5mem 0 20 16 (by decide) (by decide)
      (by decide) (by
        intro nsz h
        rw [show getBlk C5st.blocks (0 + 16) = some (16, true) from by decide] at h
        simp at h)).2 32
    ⟨[(16, true), (16, true), (48, true)],
      [[], [], [], [], [], [], [], [], [], [], []], 80⟩ (by decide)).1,
   ((realloc_fallback_copies_oldsize C5st C5mem 0 20 16 (by decide) (by decide)
      (by decide) (by
        intro nsz h
        rw [show getBlk C5st.blocks (0 + 16) = some (16, true) from by decide] at h
        simp at h)).2 32
    ⟨[(16, true), (16, true), (48, true)],
      [[], [], [], [], [], [], [], [], [], [], []], 80⟩ (by decide)).2.1 40
      (by decide) (by decide) (by decide),
   ((realloc_fallback_copies_oldsize C5st C5mem 0 20 16 (by decide) (by decide)
      (by decide) (by
        intro nsz h
        rw [show getBlk C5st.blocks (0 + 16) = some (16, true) from by decide] at h
        simp at h)).2 32
    ⟨[(16, true), (16, true), (48, true)],
      [[], [], [], [], [], [], [], [], [], [], []], 80⟩ (by decide)).2.2 8
      (by decide) (Or.inl (by decide))⟩

/-- Claim C7 (amended): when zeroAllocate(count, elemSize) returns a
non-null pointer, exactly the first `count * elemSize` bytes from the
returned pointer are zero-filled; payload bytes beyond `count * elemSize`
keep their previous contents, so the ENTIRE returned block is zeroed only
when `count * elemSize` covers its whole payload.  In the boundary case
`count * elemSize = 0` (including count = 0) the result is null, since
`malloc` rejects zero-byte requests, and the byte store is untouched. -/
theorem calloc_zero_fill_extent (st : MMSt) (mem : List Nat) (n e : Nat) :
    (∀ p st1 m1, mm_calloc st mem n e = (some p, st1, some m1) →
      (∀ i, i < mem.length → p ≤ i → i < p + n * e → m1.getD i 0 = 0) ∧
      (∀ i, i < mem.length → (i < p ∨ p + n * e ≤ i) →
        m1.getD i 0 = mem.getD i 0)) ∧
    (n * e = 0 → mm_calloc st mem n e = (none, st, some mem)) := by
  constructor
  · intro p st1 m1 h
    simp only [mm_calloc] at h
    rcases hml : mm_malloc st (n * e) with ⟨r, st2⟩
    rw [hml] at h
    rcases r with _ | q
    · have h' : ((none : Option Nat), st2, memsetBytes mem none 0 (n * e))
          = (some p, st1, some m1) := h
      rcases hms : memsetBytes mem none 0 (n * e) with _ | mx
      · rw [hms] at h'
        simp at h'
      · rw [hms] at h'
        simp at h'
    · have h' : ((some q : Option Nat), st2, memsetBytes mem (some q) 0 (n * e))
          = (some p, st1, some m1) := h
      have hq : q = p ∧ st2 = st1 ∧ memsetBytes mem (some q) 0 (n * e) = some m1 := by
        simpa using h'
      obtain ⟨rfl, -, hm⟩ := hq
      constructor
      · intro i hi h1 h2
        rw [memsetBytes_getD mem q 0 (n * e) i hi m1 hm, if_pos ⟨h1, h2⟩]
      · intro i hi hout
        rw [memsetBytes_getD mem q 0 (n * e) i hi m1 hm, if_neg (by omega)]
  · intro h0
    have hml : mm_malloc st 0 = (none, st) := by
      rw [mm_malloc, if_pos rfl]
    simp only [mm_calloc, h0, hml]
    simp [memsetBytes]

/-- Witness for C7 (amended) on `C7st`/`C7mem` with count = elemSize = 1:
byte 0 of the returned block is zeroed but byte 1 keeps its old value 7,
so the block is not zero-filled beyond `count * elemSize`. -/
theorem calloc_zero_fill_extent_witness :
    ([0, 7, 7, 7, 7, 7, 7, 7] : List Nat).getD 0 0 = 0 ∧
    ([0, 7, 7, 7, 7, 7, 7, 7] : List Nat).getD 1 0 = C7mem.getD 1 0 :=
  ⟨((calloc_zero_fill_extent C7st C7mem 1 1).1 0
      ⟨[(16, true)], [[], [], [], [], [], [], [], [], [], [], []], 16⟩
      [0, 7, 7, 7, 7, 7, 7, 7] (by decide)).1 0 (by decide) (by decide)
      (by decide),
   ((calloc_zero_fill_extent C7st C7mem 1 1).1 0
      ⟨[(16, true)], [[], [], [], [], [], [], [], [], [], [], []], 16⟩
      [0, 7, 7, 7, 7, 7, 7, 7] (by decide)).2 1 (by decide)
      (Or.inr (by decide))⟩

end MallocLab
